import Mathlib

/-!
Verification development for the intl-cli translation maintenance tool.

The source program (src/commands/update-translations.ts) scans a directory of
locale-keyed JSON translation files, detects keys present in a reference locale
but absent in other locales, asks an external translation capability for the
missing texts, and writes the results back into the locale files.

We shallowly embed the program: JSON documents become an inductive type,
JavaScript plain objects become insertion-ordered association lists with
replace-in-place update (the semantics of JS property assignment and object
spread), and the orchestrator becomes a pure function from an explicit
file-system world and an explicit translation-capability response to a trace
of effects (capability calls, file writes, report lines) plus an
Except-valued settlement result mirroring the promise combinator used.
-/

/-- JSON values as parsed by fs.readJson: null, booleans, numbers, strings,
arrays and objects.  Object fields are kept in insertion order, as JavaScript
does for non-integer-like string keys.  (JavaScript additionally enumerates
integer-like keys first in numeric order; no claim below constrains
enumeration order on such documents, so the model keeps plain insertion
order.)  Numbers are modelled as integers: the program never computes with
numeric leaf values, it only carries them through. -/
inductive Json where
  | null : Json
  | bool : Bool → Json
  | num : Int → Json
  | str : String → Json
  | arr : List Json → Json
  | obj : List (String × Json) → Json

mutual
/-- Structural equality test for Json values. -/
def Json.beq : Json → Json → Bool
  | .null, .null => true
  | .bool a, .bool b => a == b
  | .num a, .num b => a == b
  | .str a, .str b => a == b
  | .arr a, .arr b => Json.beqList a b
  | .obj a, .obj b => Json.beqFields a b
  | _, _ => false

/-- Structural equality test for lists of Json values. -/
def Json.beqList : List Json → List Json → Bool
  | [], [] => true
  | a :: as8, b :: bs8 => a.beq b && Json.beqList as8 bs8
  | _, _ => false

/-- Structural equality test for Json object field lists. -/
def Json.beqFields : List (String × Json) → List (String × Json) → Bool
  | [], [] => true
  | (ka, va) :: as8, (kb, vb) :: bs8 => ka == kb && va.beq vb && Json.beqFields as8 bs8
  | _, _ => false
end

mutual
theorem Json.beq_iff : ∀ a b : Json, a.beq b = true ↔ a = b
  | .null, .null => by simp [Json.beq]
  | .bool a, .bool b => by simp [Json.beq]
  | .num a, .num b => by simp [Json.beq]
  | .str a, .str b => by simp [Json.beq]
  | .arr a, .arr b => by
      simp only [Json.beq, Json.beqList_iff a b, Json.arr.injEq]
  | .obj a, .obj b => by
      simp only [Json.beq, Json.beqFields_iff a b, Json.obj.injEq]
  | .null, .bool _ | .null, .num _ | .null, .str _ | .null, .arr _ | .null, .obj _
  | .bool _, .null | .bool _, .num _ | .bool _, .str _ | .bool _, .arr _ | .bool _, .obj _
  | .num _, .null | .num _, .bool _ | .num _, .str _ | .num _, .arr _ | .num _, .obj _
  | .str _, .null | .str _, .bool _ | .str _, .num _ | .str _, .arr _ | .str _, .obj _
  | .arr _, .null | .arr _, .bool _ | .arr _, .num _ | .arr _, .str _ | .arr _, .obj _
  | .obj _, .null | .obj _, .bool _ | .obj _, .num _ | .obj _, .str _ | .obj _, .arr _ => by
      simp [Json.beq]

theorem Json.beqList_iff : ∀ a b : List Json, Json.beqList a b = true ↔ a = b
  | [], [] => by simp [Json.beqList]
  | a :: as8, b :: bs8 => by
      simp [Json.beqList, Json.beq_iff a b, Json.beqList_iff as8 bs8]
  | [], _ :: _ => by simp [Json.beqList]
  | _ :: _, [] => by simp [Json.beqList]

theorem Json.beqFields_iff :
    ∀ a b : List (String × Json), Json.beqFields a b = true ↔ a = b
  | [], [] => by simp [Json.beqFields]
  | (ka, va) :: as8, (kb, vb) :: bs8 => by
      simp [Json.beqFields, Json.beq_iff va vb, Json.beqFields_iff as8 bs8, and_assoc]
  | [], _ :: _ => by simp [Json.beqFields]
  | _ :: _, [] => by simp [Json.beqFields]
end

instance : DecidableEq Json := fun a b => decidable_of_iff _ (Json.beq_iff a b)

/-- A JavaScript property write acc[k] = v on a plain object: replaces the
value in place if the key is present, otherwise appends the key at the end.
This is JS object-key insertion-order semantics. -/
def recSet {α : Type} (m : List (String × α)) (k : String) (v : α) : List (String × α) :=
  match m with
  | [] => [(k, v)]
  | (k', v') :: rest => if k' = k then (k, v) :: rest else (k', v') :: recSet rest k v

/-- Lookup of a property on a JS plain object. -/
def recLookup {α : Type} (m : List (String × α)) (k : String) : Option α :=
  match m with
  | [] => none
  | (k', v') :: rest => if k' = k then some v' else recLookup rest k

/-- Whether a JS plain object has a (own) property. -/
def recHasKey {α : Type} (m : List (String × α)) (k : String) : Bool :=
  match m with
  | [] => false
  | (k', _) :: rest => if k' = k then true else recHasKey rest k

/-- The object spread ... merge as in the reduce of flattenObject:
every entry of the second object is assigned into the first, later entries
overriding earlier ones in place. -/
def recMerge {α : Type} (a b : List (String × α)) : List (String × α) :=
  b.foldl (fun acc kv => recSet acc kv.1 kv.2) a

/-- A JavaScript property assignment obj[k] = v on a plain object.  For an
ordinary key this stores an own entry (recSet).  The key "__proto__" is
special: unless an own "__proto__" data entry already shadows it, the
assignment finds the inherited Object.prototype accessor and goes through
its setter, which stores no own entry — a non-object value is silently
discarded, and an object value only changes the prototype, which entry
enumeration and JSON serialization never see.  (Own "__proto__" entries do
arise, but only from operations that define own properties directly:
JSON.parse, object spread, Object.fromEntries.) -/
def jsAssign {α : Type} (m : List (String × α)) (k : String) (v : α) : List (String × α) :=
  if k = "__proto__" ∧ recHasKey m k = false then m else recSet m k v

/-- The JS test typeof val === 'object' && val !== null, which is the
recursion guard of flattenObject: true exactly for arrays and objects. -/
def Json.isObjLike : Json → Bool
  | .arr _ => true
  | .obj _ => true
  | _ => false

/-- newKey computation of flattenObject: the source reads
prefix ? prefix + '.' + key : key (the empty string is falsy in JS). -/
def joinKey (pre k : String) : String :=
  if pre = "" then k else pre ++ "." ++ k

/-- The reduce of flattenObject over the index-keyed character entries that
Object.entries yields for a string: each value is a one-character string,
not object-like, so every step takes the scalar assignment branch and
nothing recurses. -/
def flattenChars (pre : String) (acc : List (String × Json)) (i : Nat) :
    List Char → List (String × Json)
  | [] => acc
  | c :: rest =>
      flattenChars pre (jsAssign acc (joinKey pre (toString i)) (.str ⟨[c]⟩)) (i + 1) rest

mutual
/-- flattenObject from the source:
Object.entries(obj).reduce over the entries, recursing into object-like
values (spread-merging the recursive flat map into the accumulator) and
assigning scalar values at the dotted key.  Arrays are object-like in JS, so
Object.entries of an array yields its elements keyed by their decimal
indices and the recursion descends into them.  The recursion guard passes
only arrays and objects down, but the top-level call receives whatever the
JSON file parsed to: a string document enumerates its characters by index, a
number or boolean has no entries and flattens to the empty map, and a null
document makes Object.entries throw, rejecting that pipeline.  The model
keeps flattenJson total and returns the empty map for null; no theorem
below rests on a null-rooted document contributing entries, which matches
the real program, where a null document contributes none (its pipeline
crashes before producing any). -/
def flattenJson (j : Json) (pre : String) : List (String × Json) :=
  match j with
  | .obj fs => flattenFields pre [] fs
  | .arr es => flattenElems pre [] 0 es
  | .str sv => flattenChars pre [] 0 sv.data
  | _ => []

/-- The reduce of flattenObject over the entries of an object.  The scalar
branch is the plain JS assignment acc[newKey] = val, so a top-level
"__proto__" key is lost to the prototype setter. -/
def flattenFields (pre : String) (acc : List (String × Json)) :
    List (String × Json) → List (String × Json)
  | [] => acc
  | (k, v) :: rest =>
    let nk := joinKey pre k
    if v.isObjLike then flattenFields pre (recMerge acc (flattenJson v nk)) rest
    else flattenFields pre (jsAssign acc nk v) rest

/-- The reduce of flattenObject over the index-keyed entries of an array. -/
def flattenElems (pre : String) (acc : List (String × Json)) (i : Nat) :
    List Json → List (String × Json)
  | [] => acc
  | v :: rest =>
    let nk := joinKey pre (toString i)
    if v.isObjLike then flattenElems pre (recMerge acc (flattenJson v nk)) (i + 1) rest
    else flattenElems pre (jsAssign acc nk v) (i + 1) rest
end

/-- flattenObject with its default empty path, as called by the program. -/
def flattenObject (j : Json) : List (String × Json) :=
  flattenJson j ""

/-! ## Character-level string utilities

The JavaScript string operations the program relies on (String.prototype.split,
trim, property-path parsing in lodash) are modelled character-wise so that all
definitions evaluate inside the kernel. -/

/-- Split a character list at every occurrence of a separator character, as
JS String.prototype.split with a one-character separator does (keeping empty
pieces).  The result is always nonempty. -/
def splitCharsOn (sep : Char) : List Char → List (List Char)
  | [] => [[]]
  | c :: rest =>
    match splitCharsOn sep rest with
    | [] => [[]]
    | s :: ss => if c = sep then [] :: s :: ss else (c :: s) :: ss

/-- Whether the first list is an initial segment of the second. -/
def leadsWith : List Char → List Char → Bool
  | [], _ => true
  | _ :: _, [] => false
  | a :: as8, b :: bs8 => a == b && leadsWith as8 bs8

/-- Split a character list at every occurrence of the (nonempty) separator
sequence s0 :: srest, as JS String.prototype.split with a multi-character
separator does.  The fuel argument only forces structural recursion (the
input shrinks by at least one character per step); splitSeq supplies enough
fuel for it never to run out. -/
def splitSeqF (s0 : Char) (srest : List Char) : Nat → List Char → List (List Char)
  | _, [] => [[]]
  | 0, _ :: _ => [[]]
  | fuel + 1, c :: rest =>
    if c = s0 ∧ leadsWith srest rest then
      [] :: splitSeqF s0 srest fuel (rest.drop srest.length)
    else
      match splitSeqF s0 srest fuel rest with
      | [] => [[]]
      | s :: ss => (c :: s) :: ss

/-- Split at every occurrence of the separator sequence s0 :: srest, as JS
String.prototype.split with a multi-character separator does.  Used for the
':::' separator of composite keys. -/
def splitSeq (s0 : Char) (srest : List Char) (cs : List Char) : List (List Char) :=
  splitSeqF s0 srest cs.length cs

/-- JS String.prototype.trim: strip leading and trailing whitespace. -/
def trimChars (cs : List Char) : List Char :=
  ((cs.dropWhile Char.isWhitespace).reverse.dropWhile Char.isWhitespace).reverse

/-- Trim on strings. -/
def jsTrim (s : String) : String := ⟨trimChars s.data⟩

/-- JS fullKey.split(':::') on strings. -/
def splitTripleColon (s : String) : List String :=
  (splitSeq ':' [':', ':'] s.data).map fun cs => ⟨cs⟩

/-- JS line.split(':') on strings. -/
def splitColon (s : String) : List String :=
  (splitCharsOn ':' s.data).map fun cs => ⟨cs⟩

/-- JS response.split('\n') on strings. -/
def splitNewline (s : String) : List String :=
  (splitCharsOn (Char.ofNat 10) s.data).map fun cs => ⟨cs⟩

/-- JS Array.prototype.join(':'). -/
def joinColon (parts : List String) : String :=
  ⟨List.intercalate [':'] (parts.map String.data)⟩

/-! ## The lodash.set property-path model

unflattenObject delegates to lodash.set(acc, key, val).  lodash converts the
string key to a path: a key that is a plain word (reIsPlainProp, /^\w*$/) or
contains no deep-property syntax (no '.' and no bracket expression) is used
as a single property name; otherwise stringToPath cuts it into segments.  On
dot-and-bracket paths stringToPath behaves like splitting on '.' and then
decomposing bracket expressions; stray ']' characters separate runs and are
dropped.  (The quoted-bracket forms '["..."]' of lodash and its
MAX_SAFE_INTEGER bound on indices are not exercised by any theorem below and
are left out.)  The walk of lodash baseSet then creates missing intermediate
nodes — an array when the following path segment is an integer-like index
(reIsUint, /^(?:0|[1-9]\d*)$/), a plain object otherwise — and assigns the
leaf through JS property assignment. -/

/-- Word characters, the \w class of the lodash regexes. -/
def isWordChar (c : Char) : Bool := c.isAlphanum || c == '_'

/-- lodash reIsPlainProp, /^\w*$/. -/
def plainProp (s : String) : Bool := s.data.all isWordChar

/-- Whether a bracket expression '[' … ']' (no nested bracket characters in
between) occurs, the bracket alternative of lodash reIsDeepProp. -/
def hasBracketExpr : List Char → Bool
  | [] => false
  | c :: rest =>
    if c = '[' then
      match rest.dropWhile (fun d => d ≠ '[' ∧ d ≠ ']') with
      | ']' :: _ => true
      | _ => hasBracketExpr rest
    else hasBracketExpr rest

/-- The string case of lodash isKey: a plain word, or no deep-property
syntax.  (The 'value in object' escape hatch of isKey never fires in
unflattenObject: the accumulator object never owns a key that also contains
deep-property syntax, since set only ever creates its path segments as
properties.) -/
def isKeyStr (s : String) : Bool :=
  plainProp s || !(s.data.contains '.' || hasBracketExpr s.data)

theorem dropWhile_length_le (p : Char → Bool) (l : List Char) :
    (l.dropWhile p).length ≤ l.length := by
  induction l with
  | nil => simp
  | cons c rest ih =>
      simp only [List.dropWhile]
      cases p c <;> simp <;> omega

/-- Decomposition of one dot-free piece of a lodash path string: plain runs
become keys, '[expr]' contributes expr trimmed, stray brackets are dropped.
The fuel argument only forces structural recursion (the input shrinks by at
least one character per step); expandSeg supplies enough fuel for it never
to run out. -/
def expandSegF : Nat → List Char → List String
  | _, [] => []
  | 0, _ :: _ => []
  | fuel + 1, c :: rest =>
      if c = '[' then
        let content := rest.takeWhile (fun ch => ch ≠ ']')
        match rest.dropWhile (fun ch => ch ≠ ']') with
        | ']' :: more =>
            if content ≠ [] then (⟨trimChars content⟩ : String) :: expandSegF fuel more
            else expandSegF fuel more
        | _ => expandSegF fuel rest
      else if c = ']' then expandSegF fuel rest
      else
        (⟨c :: rest.takeWhile (fun d => d ≠ '[' ∧ d ≠ ']')⟩ : String) ::
          expandSegF fuel (rest.dropWhile (fun d => d ≠ '[' ∧ d ≠ ']'))

/-- Decomposition of one dot-free piece, keeping empty pieces. -/
def expandSeg (cs : List Char) : List String :=
  if cs = [] then [""] else expandSegF cs.length cs

/-- lodash stringToPath on dot-and-bracket path strings. -/
def stringToPath (s : String) : List String :=
  (splitCharsOn '.' s.data).flatMap expandSeg

/-- lodash castPath for a string key. -/
def castPath (s : String) : List String :=
  if isKeyStr s then [s] else stringToPath s

/-- lodash reIsUint, /^(?:0|[1-9]\d*)$/: integer-like property names, the
test deciding whether a missing intermediate node becomes an array. -/
def isIndexStr (s : String) : Bool :=
  match s.data with
  | [] => false
  | c :: rest => if c = '0' then rest.isEmpty else c.isDigit && rest.all Char.isDigit

/-- Numeric value of an integer-like property name. -/
def natOfIndex (s : String) : Nat :=
  s.data.foldl (fun n c => n * 10 + (c.toNat - 48)) 0

/-- Property read during the baseSet walk. -/
def getProp : Json → String → Option Json
  | .obj fs, k => recLookup fs k
  | .arr es, k => if isIndexStr k then es.get? (natOfIndex k) else none
  | _, _ => none

/-- JS property assignment as performed by lodash assignValue: in-place
update or append on objects through the plain assignment object[key] = value
— so a "__proto__" key without an own shadowing entry stores nothing, which
is also the observable behavior of the prototype-pollution guard later
lodash versions put in baseSet; index write on arrays (writing past the end
fills the gap with nulls, which is how JSON serialization renders the holes);
a non-index property added to an array is invisible to JSON serialization;
assignment onto a scalar has no observable effect. -/
def assignValue : Json → String → Json → Json
  | .obj fs, k, v => .obj (jsAssign fs k v)
  | .arr es, k, v =>
      if isIndexStr k then
        let i := natOfIndex k
        if i < es.length then .arr (es.set i v)
        else .arr (es ++ List.replicate (i - es.length) .null ++ [v])
      else .arr es
  | j, _, _ => j

/-- lodash baseSet: walk the path, reusing an existing object-like node at
each step and otherwise creating an array or object according to the next
segment, then assign the value at the last segment.  (The source mutates the
nested node in place; the structures built by unflattenObject are trees, so
the functional rebuild is equivalent.) -/
def setPath : Json → List String → Json → Json
  | j, [], _ => j
  | j, [k], v => assignValue j k v
  | j, k :: k2 :: rest, v =>
      let child :=
        match getProp j k with
        | some c => if c.isObjLike then c else (if isIndexStr k2 then .arr [] else .obj [])
        | none => if isIndexStr k2 then .arr [] else .obj []
      assignValue j k (setPath child (k2 :: rest) v)

/-- lodash set(acc, key, val) on JSON trees. -/
def lodashSet (j : Json) (k : String) (v : Json) : Json :=
  setPath j (castPath k) v

/-- unflattenObject from the source: Object.entries(flat).reduce over the
flat entries, lodash-setting each dotted key into a fresh accumulator. -/
def unflattenObject (flat : List (String × Json)) : Json :=
  flat.foldl (fun acc kv => lodashSet acc kv.1 kv.2) (.obj [])

/-! ## The locale regex

isLocale tests a directory name against
/^[A-Za-z]{2,4}([_-][A-Za-z]{4})?([_-]([A-Za-z]{2}|[0-9]{3}))?$/ .
The pattern is star-free, so it is embedded as a small backtracking regex
interpreter over an exact AST of the pattern: bounded repetition {2,4} is
expanded into an alternation of fixed repetitions, and the two optional
groups into alternations with the empty expression.  The anchors ^ and $
make String.prototype.match a whole-string test, and a whole-string match of
this pattern is a nonempty string, hence a truthy match result. -/

/-- Star-free regular expressions: the empty word, a character class, a
sequence, an alternation. -/
inductive RE where
  | eps : RE
  | cls : (Char → Bool) → RE
  | seq : RE → RE → RE
  | alt : RE → RE → RE

/-- All suffixes that remain after this expression matches some prefix of
the input (the backtracking search space of the regex engine). -/
def matchRem : RE → List Char → List (List Char)
  | .eps, cs => [cs]
  | .cls _, [] => []
  | .cls p, c :: rest => if p c then [rest] else []
  | .seq a b, cs => (matchRem a cs).flatMap (matchRem b)
  | .alt a b, cs => matchRem a cs ++ matchRem b cs

/-- Whole-string match: some branch of the search consumes all input. -/
def reFull (r : RE) (cs : List Char) : Bool :=
  (matchRem r cs).contains []

/-- Fixed repetition r{n}. -/
def repN : Nat → RE → RE
  | 0, _ => .eps
  | n + 1, r => .seq r (repN n r)

/-- Optional group r? . -/
def opt (r : RE) : RE := .alt r .eps

/-- The character class [A-Za-z]. -/
def alphaC : RE := .cls Char.isAlpha

/-- The character class [0-9]. -/
def digitC : RE := .cls Char.isDigit

/-- The locale pattern with its separator class as a parameter, so that the
source pattern (separator class [_-]) and the hyphen-only grammar written in
the specification share one definition:
lang{2,4} (sep script{4})? (sep (alpha{2}|digit{3}))? . -/
def localeREWith (sepP : Char → Bool) : RE :=
  .seq (.alt (repN 2 alphaC) (.alt (repN 3 alphaC) (repN 4 alphaC)))
    (.seq (opt (.seq (.cls sepP) (repN 4 alphaC)))
      (opt (.seq (.cls sepP) (.alt (repN 2 alphaC) (repN 3 digitC)))))

/-- isLocale from the source: name.match on the regex above, whose separator
class [_-] admits both underscore and hyphen. -/
def isLocale (s : String) : Bool :=
  reFull (localeREWith (fun c => c == '-' || c == '_')) s.data

/-- Locale discovery: the source keeps the root folder entries that match
isLocale (entries.filter(isLocale)). -/
def discoveredLocales (dirs : List String) : List String :=
  dirs.filter isLocale

/-- Modelled from the spec: the LocaleTag grammar as written in the
specification, language[-script][-region], which spells its separators as
hyphens only.  Used solely to compare the specified grammar with the one the
source implements. -/
def specLocaleTag (s : String) : Bool :=
  reFull (localeREWith (fun c => c == '-')) s.data

/-! ## The pipeline

The file system is explicit: the entries of the root folder (fs.readdir) and
a mapping from full file paths to their parsed JSON contents.  fast-glob's
referenceFolder/**/*.json enumeration together with path.relative is
modelled as selecting the files whose path extends referenceFolder/ with a
relative path ending in .json; path.join is string concatenation with '/'
(paths are taken normalized and slash-separated, which is what the CLI's
arguments produce on the platforms the tool targets).  The external
translation capability is an explicit parameter: for a target locale it
either fails (network/auth failure of the OpenAI call) or produces the
free-text completion the model returned.  All other effects of a run are
collected in an Effects trace. -/

/-- The observable file-system inputs of a run: the entries of the root
locale folder, and the parsed contents of every JSON file by full path. -/
structure World where
  dirs : List String
  files : List (String × Json)

/-- A console report line, one of the four chalk messages of the source. -/
inductive Report where
  | nothingToDo : String → Report
  | dryRunPreview : String → List (String × Json) → Report
  | translating : String → Nat → Report
  | updated : String → Nat → Report
deriving DecidableEq

/-- The side effects of a run: translation-capability invocations (target
locale and the entries sent), file writes (path and the full document
written), and console report lines. -/
structure Effects where
  calls : List (String × List (String × Json))
  writes : List (String × Json)
  reports : List Report
deriving DecidableEq

instance : DecidableEq (Except String Unit) := fun a b => by
  cases a with
  | error e =>
      cases b with
      | error f =>
          exact decidable_of_iff (e = f)
            ⟨fun h => by rw [h], fun h => by injection h⟩
      | ok _ => exact isFalse fun h => by injection h
  | ok u =>
      cases b with
      | error _ => exact isFalse fun h => by injection h
      | ok v =>
          exact decidable_of_iff (u = v)
            ⟨fun h => by rw [h], fun h => by injection h⟩

/-- Whether a string ends in .json (the *.json part of the glob pattern). -/
def endsWithJson (s : String) : Bool :=
  leadsWith ['n', 'o', 's', 'j', '.'] s.data.reverse

/-- Path-prefix removal: the relative path of s under the folder, when s
lies under it. -/
def stripFolder (folder : String) (s : String) : Option String :=
  if leadsWith (folder ++ "/").data s.data then
    some ⟨s.data.drop (folder ++ "/").data.length⟩
  else none

/-- The files found by fast-glob under a folder, paired with their
path.relative paths. -/
def globJsonUnder (folder : String) (files : List (String × Json)) :
    List (String × Json) :=
  files.filterMap fun pj =>
    match stripFolder folder pj.1 with
    | some rel => if endsWithJson rel then some (rel, pj.2) else none
    | none => none

/-- lodash.difference(a, b): the elements of a, in order, that do not occur
in b (string equality). -/
def difference (a b : List String) : List String :=
  a.filter fun k => !(b.contains k)

/-- Object.fromEntries: builds an object from a list of entries, later
entries with the same key overriding earlier ones in place. -/
def fromEntries {α : Type} (l : List (String × α)) : List (String × α) :=
  recMerge [] l

/-- The per-file closure inside getMissingTranslationsForLocale: flatten the
reference file, flatten the corresponding target file — a missing target
file (fs.pathExists false) is read as the empty document — take the
lodash.difference of the key lists, and key each missing entry by
relativePath:::dottedKey with the reference text as value.  (The .getD
Json.null default of the value lookup is never taken: every missing key is a
key of the reference flat map.) -/
def missingEntriesForFile (rel : String) (refJson : Json) (target : Option Json) :
    List (String × Json) :=
  let refFlat := flattenObject refJson
  let targetFlat := flattenObject (target.getD (.obj []))
  (difference (refFlat.map Prod.fst) (targetFlat.map Prod.fst)).map
    fun k => (rel ++ ":::" ++ k, (recLookup refFlat k).getD .null)

/-- getMissingTranslationsForLocale from the source: enumerate the reference
folder's JSON files, compute each file's missing entries against the file at
the same relative path under the locale folder, and collect everything into
one object. -/
def getMissingTranslationsForLocale (referenceFolder localeFolder : String)
    (files : List (String × Json)) : List (String × Json) :=
  fromEntries ((globJsonUnder referenceFolder files).flatMap fun rj =>
    missingEntriesForFile rj.1 rj.2 (recLookup files (localeFolder ++ "/" ++ rj.1)))

/-- getAllMissingTranslations from the source: the locales are the root
folder entries matching isLocale; every locale other than the reference one
is mapped to its missing-entry object (a locale with nothing missing is
kept, with an empty object).  The referenceFlat object the source also
computes is dead code (never read) built from pure file reads, so it is
omitted here.  The source fills the result object from concurrently
resolving promises, so its key order is timing-dependent; the model uses the
locale list order, on which no claim depends. -/
def getAllMissingTranslations (folderPath referenceLocale : String) (w : World) :
    List (String × List (String × Json)) :=
  ((discoveredLocales w.dirs).filter fun locale => locale ≠ referenceLocale).map
    fun locale =>
      (locale,
        getMissingTranslationsForLocale (folderPath ++ "/" ++ referenceLocale)
          (folderPath ++ "/" ++ locale) w.files)

/-- The response parsing of translateWithGPT: split the completion text into
lines, split each line at every ':', and when the part before the first ':'
is nonempty (truthy) and a ':' was present at all, record
trimmedKey ↦ trimmedRejoinedRemainder.  The store is the plain JS assignment
result[key.trim()] = ..., so a line whose trimmed key is "__proto__" goes to
the prototype setter and records nothing. -/
def parseGptResponse (response : String) : List (String × String) :=
  (splitNewline response).foldl
    (fun result line =>
      match splitColon line with
      | [] => result
      | key :: valParts =>
          if key ≠ "" ∧ valParts ≠ [] then
            jsAssign result (jsTrim key) (jsTrim (joinColon valParts))
          else result)
    []

/-- One write of the per-entry write phase of translateMissingKeys: split
the translated key at ':::' (JS array destructuring: a missing second part
is undefined, which JS property access then coerces to the string
"undefined"), resolve the target path with path.join, read the existing file
or start from the empty document, flatten, set the leaf with the plain
assignment flat[jsonKey] = translatedValue, unflatten, write.  path.join
drops empty segments, so an empty relative path collapses the target to the
locale directory itself: that directory exists (every locale processed came
from readdir of the root folder), so fs.pathExists is true and fs.readJson
of the directory rejects with EISDIR — no file is written and this entry's
promise rejects.
For a nonempty relative path the join is modeled as '/'-concatenation,
which matches path.join whenever the segment needs no normalization (it has
no separators and is not a dot segment); no theorem below exercises keys
that path.join would rewrite.  Each concurrent entry of the write phase
reads the file system as it was when the phase started, which realizes the
unsynchronized read-modify-write interleaving the design notes call out. -/
def writeForEntry (folderPath locale : String) (files : List (String × Json))
    (fullKey translatedValue : String) : Except String (String × Json) :=
  let parts := splitTripleColon fullKey
  let relativePath := parts.headD ""
  let jsonKey := (parts.get? 1).getD "undefined"
  if relativePath = "" then .error "EISDIR: illegal operation on a directory"
  else
    let targetPath := folderPath ++ "/" ++ locale ++ "/" ++ relativePath
    let json := (recLookup files targetPath).getD (.obj [])
    let updated := unflattenObject (jsAssign (flattenObject json) jsonKey (.str translatedValue))
    .ok (targetPath, updated)

/-- Settlement of the write phase's Promise.all over the per-entry write
results: fulfilled when every entry's write fulfils, rejected with a failing
entry's error otherwise (which failure wins the race is timing-dependent;
the model takes the first in list order). -/
def writesFirstError : List (Except String (String × Json)) → Except String Unit
  | [] => .ok ()
  | .ok _ :: rest => writesFirstError rest
  | .error e :: _ => .error e

/-- The successfully performed writes of the write phase: a failing entry
does not cancel its siblings, whose writes still happen. -/
def writeSuccesses (results : List (Except String (String × Json))) :
    List (String × Json) :=
  results.filterMap fun r => match r with | .ok w => some w | .error _ => none

/-- The per-locale pipeline inside translateMissingKeys: report and stop
when nothing is missing, report the map and stop under dry run, otherwise
report progress, invoke the capability, and on success attempt one merged
document write per translated entry.  The write phase awaits a Promise.all
over the entries: only when every write fulfils is completion reported —
with the requested total, not the written count; if some entry's write
rejects (the empty-relative-path EISDIR case), the writes of its sibling
entries still happen but no completion is reported and this locale's
pipeline rejects with that error.  A capability failure likewise rejects
this locale's pipeline after the progress report and the attempted call. -/
def processLocale (folderPath : String) (resp : String → Except String String)
    (dryRun : Bool) (files : List (String × Json)) (locale : String)
    (entries : List (String × Json)) : Effects × Except String Unit :=
  let total := entries.length
  if total = 0 then (⟨[], [], [.nothingToDo locale]⟩, .ok ())
  else if dryRun then (⟨[], [], [.dryRunPreview locale entries]⟩, .ok ())
  else
    match resp locale with
    | .error e => (⟨[(locale, entries)], [], [.translating locale total]⟩, .error e)
    | .ok text =>
        let translated := parseGptResponse text
        let results := translated.map fun kv =>
          writeForEntry folderPath locale files kv.1 kv.2
        match writesFirstError results with
        | .ok () =>
            (⟨[(locale, entries)], writeSuccesses results,
              [.translating locale total, .updated locale total]⟩, .ok ())
        | .error e =>
            (⟨[(locale, entries)], writeSuccesses results,
              [.translating locale total]⟩, .error e)

/-- Concatenation of per-locale effect traces.  The real pipelines interleave
their effects in timing-dependent order; the model lists them locale by
locale, and no claim below depends on the interleaving. -/
def catEffects (es : List Effects) : Effects :=
  ⟨(es.map Effects.calls).flatten, (es.map Effects.writes).flatten,
    (es.map Effects.reports).flatten⟩

/-- Settlement of Promise.all over the per-locale pipelines: fulfilled when
all fulfil, rejected with a rejection as soon as one rejects (which failure
wins the race is timing-dependent; the model takes the first in list order).
Promise.all does not wait for the remaining pipelines before rejecting, and
none of them is cancelled. -/
def firstError : List (Except String Unit) → Except String Unit
  | [] => .ok ()
  | .ok () :: rest => firstError rest
  | .error e :: _ => .error e

/-- translateMissingKeys from the source: compute the missing-translation
map, run every locale's pipeline, accumulate all their effects, and settle
like Promise.all over the per-locale results. -/
def translateMissingKeys (folderPath referenceLocale : String) (dryRun : Bool)
    (w : World) (resp : String → Except String String) :
    Effects × Except String Unit :=
  let allMissing := getAllMissingTranslations folderPath referenceLocale w
  let results := allMissing.map fun le =>
    processLocale folderPath resp dryRun w.files le.1 le.2
  (catEffects (results.map Prod.fst), firstError (results.map Prod.snd))

/-! ## Basic lemmas about the JS record operations -/

theorem mem_recSet {α : Type} (m : List (String × α)) (k : String) (v : α)
    (kv : String × α) (h : kv ∈ recSet m k v) : kv ∈ m ∨ kv = (k, v) := by
  induction m with
  | nil => simp [recSet] at h; simp [h]
  | cons hd tl ih =>
      obtain ⟨k', v'⟩ := hd
      by_cases hk : k' = k
      · simp only [recSet, if_pos hk, List.mem_cons] at h
        rcases h with h | h
        · right; exact h
        · left; simp [h]
      · simp only [recSet, if_neg hk, List.mem_cons] at h
        rcases h with h | h
        · left; simp [h]
        · rcases ih h with h3 | h3
          · left; simp [h3]
          · right; exact h3

theorem mem_recMerge {α : Type} (a b : List (String × α)) (kv : String × α)
    (h : kv ∈ recMerge a b) : kv ∈ a ∨ kv ∈ b := by
  induction b generalizing a with
  | nil => left; simpa [recMerge] using h
  | cons hd tl ih =>
      have h' : kv ∈ recMerge (recSet a hd.1 hd.2) tl := by
        simpa [recMerge] using h
      rcases ih _ h' with h2 | h2
      · rcases mem_recSet _ _ _ _ h2 with h3 | h3
        · exact Or.inl h3
        · exact Or.inr (by rw [h3]; simp)
      · exact Or.inr (List.mem_cons_of_mem _ h2)

theorem recSet_of_not_mem {α : Type} (m : List (String × α)) (k : String) (v : α)
    (h : k ∉ m.map Prod.fst) : recSet m k v = m ++ [(k, v)] := by
  induction m with
  | nil => simp [recSet]
  | cons hd tl ih =>
      obtain ⟨k', v'⟩ := hd
      simp only [List.map_cons, List.mem_cons] at h
      push_neg at h
      have hne : ¬k' = k := fun hh => h.1 hh.symm
      simp [recSet, hne, ih h.2]

theorem recMerge_of_disjoint {α : Type} (a b : List (String × α))
    (hnd : (b.map Prod.fst).Nodup) (h : ∀ k ∈ b.map Prod.fst, k ∉ a.map Prod.fst) :
    recMerge a b = a ++ b := by
  induction b generalizing a with
  | nil => simp [recMerge]
  | cons hd tl ih =>
      simp only [List.map_cons] at hnd
      have hnd1 := List.nodup_cons.mp hnd
      have h1 : hd.1 ∉ a.map Prod.fst := h hd.1 (by simp)
      have step : recMerge a (hd :: tl) = recMerge (a ++ [hd]) tl := by
        simp [recMerge, recSet_of_not_mem a hd.1 hd.2 h1]
      rw [step, ih (a ++ [hd])]
      · simp
      · exact hnd1.2
      · intro k hk
        simp only [List.map_append, List.mem_append, List.map_cons, List.map_nil,
          List.mem_singleton]
        push_neg
        refine ⟨h k (by simp [hk]), ?_⟩
        intro hcon
        exact hnd1.1 (hcon ▸ hk)

theorem recLookup_mem {α : Type} (m : List (String × α)) (k : String) (v : α)
    (h : recLookup m k = some v) : (k, v) ∈ m := by
  induction m with
  | nil => simp [recLookup] at h
  | cons hd tl ih =>
      obtain ⟨k', v'⟩ := hd
      by_cases hk : k' = k
      · simp only [recLookup, if_pos hk, Option.some.injEq] at h
        subst hk; subst h; simp
      · simp only [recLookup, if_neg hk] at h
        exact List.mem_cons_of_mem _ (ih h)

theorem mem_recLookup {α : Type} (m : List (String × α)) (k : String) (v : α)
    (hnd : (m.map Prod.fst).Nodup) (h : (k, v) ∈ m) : recLookup m k = some v := by
  induction m with
  | nil => simp at h
  | cons hd tl ih =>
      obtain ⟨k', v'⟩ := hd
      simp only [List.map_cons] at hnd
      have hnd1 := List.nodup_cons.mp hnd
      rcases List.mem_cons.mp h with h1 | h1
      · have hk : k = k' := congrArg Prod.fst h1
        have hv : v = v' := congrArg Prod.snd h1
        subst hk
        simp [recLookup, hv]
      · have hk : k' ≠ k := by
          rintro rfl
          exact hnd1.1 (by simpa using List.mem_map_of_mem Prod.fst h1)
        simp only [recLookup, if_neg hk]
        exact ih hnd1.2 h1

theorem recLookup_isSome_iff {α : Type} (m : List (String × α)) (k : String) :
    (recLookup m k).isSome = true ↔ k ∈ m.map Prod.fst := by
  induction m with
  | nil => simp [recLookup]
  | cons hd tl ih =>
      obtain ⟨k', v'⟩ := hd
      by_cases hk : k' = k
      · simp [recLookup, hk]
      · have hne : ¬k = k' := fun hh => hk hh.symm
        simp [recLookup, hk, ih, hne]

theorem recSet_keys_of_not_mem {α : Type} (m : List (String × α)) (k : String) (v : α)
    (h : k ∉ m.map Prod.fst) :
    (recSet m k v).map Prod.fst = m.map Prod.fst ++ [k] := by
  rw [recSet_of_not_mem m k v h]; simp

theorem mem_keys_recSet {α : Type} (m : List (String × α)) (k a : String) (v : α) :
    a ∈ (recSet m k v).map Prod.fst ↔ a ∈ m.map Prod.fst ∨ a = k := by
  induction m with
  | nil => simp [recSet]
  | cons hd tl ih =>
      obtain ⟨k', v'⟩ := hd
      by_cases hk : k' = k
      · subst hk
        have hr : recSet ((k', v') :: tl) k' v = (k', v) :: tl := by simp [recSet]
        rw [hr]
        simp only [List.map_cons, List.mem_cons]
        tauto
      · simp only [recSet, if_neg hk, List.map_cons, List.mem_cons, ih]
        tauto

theorem recSet_keys_nodup {α : Type} (m : List (String × α)) (k : String) (v : α)
    (h : (m.map Prod.fst).Nodup) : ((recSet m k v).map Prod.fst).Nodup := by
  induction m with
  | nil => simp [recSet]
  | cons hd tl ih =>
      obtain ⟨k', v'⟩ := hd
      simp only [List.map_cons] at h
      have h1 := List.nodup_cons.mp h
      by_cases hk : k' = k
      · subst hk
        simp only [recSet, if_pos rfl, List.map_cons]
        exact List.nodup_cons.mpr h1
      · simp only [recSet, if_neg hk, List.map_cons]
        refine List.nodup_cons.mpr ⟨?_, ih h1.2⟩
        rw [mem_keys_recSet]
        push_neg
        exact ⟨h1.1, hk⟩

theorem mem_keys_recMerge {α : Type} (a b : List (String × α)) (x : String) :
    x ∈ (recMerge a b).map Prod.fst ↔ x ∈ a.map Prod.fst ∨ x ∈ b.map Prod.fst := by
  induction b generalizing a with
  | nil => simp [recMerge]
  | cons hd tl ih =>
      have step : recMerge a (hd :: tl) = recMerge (recSet a hd.1 hd.2) tl := by
        simp [recMerge]
      rw [step, ih, mem_keys_recSet]
      simp only [List.map_cons, List.mem_cons]
      tauto

theorem recMerge_keys_nodup {α : Type} (a b : List (String × α))
    (h : (a.map Prod.fst).Nodup) : ((recMerge a b).map Prod.fst).Nodup := by
  induction b generalizing a with
  | nil => simpa [recMerge] using h
  | cons hd tl ih =>
      have step : recMerge a (hd :: tl) = recMerge (recSet a hd.1 hd.2) tl := by
        simp [recMerge]
      rw [step]
      exact ih _ (recSet_keys_nodup _ _ _ h)

theorem mem_jsAssign {α : Type} (m : List (String × α)) (k : String) (v : α)
    (kv : String × α) (h : kv ∈ jsAssign m k v) : kv ∈ m ∨ kv = (k, v) := by
  unfold jsAssign at h
  split at h
  · exact Or.inl h
  · exact mem_recSet m k v kv h

theorem jsAssign_keys_nodup {α : Type} (m : List (String × α)) (k : String) (v : α)
    (h : (m.map Prod.fst).Nodup) : ((jsAssign m k v).map Prod.fst).Nodup := by
  unfold jsAssign
  split
  · exact h
  · exact recSet_keys_nodup m k v h

theorem jsAssign_eq_recSet {α : Type} (m : List (String × α)) (k : String) (v : α)
    (h : k ≠ "__proto__") : jsAssign m k v = recSet m k v := by
  simp [jsAssign, h]

theorem recHasKey_of_lookup {α : Type} (m : List (String × α)) (k : String) (v : α)
    (h : recLookup m k = some v) : recHasKey m k = true := by
  induction m with
  | nil => simp [recLookup] at h
  | cons hd tl ih =>
      obtain ⟨k', v'⟩ := hd
      by_cases hk : k' = k
      · simp [recHasKey, hk]
      · simp only [recLookup, if_neg hk] at h
        simp [recHasKey, hk, ih h]

theorem jsAssign_eq_recSet_of_lookup {α : Type} (m : List (String × α)) (k : String)
    (v w : α) (h : recLookup m k = some w) : jsAssign m k v = recSet m k v := by
  simp [jsAssign, recHasKey_of_lookup m k w h]

theorem flattenChars_keys_nodup : ∀ (pre : String) (acc : List (String × Json))
    (i : Nat) (cs : List Char), (acc.map Prod.fst).Nodup →
    ((flattenChars pre acc i cs).map Prod.fst).Nodup
  | _, _, _, [], h => h
  | pre, acc, i, _ :: rest, h =>
      flattenChars_keys_nodup pre _ (i + 1) rest (jsAssign_keys_nodup _ _ _ h)

theorem flattenChars_scalar : ∀ (pre : String) (acc : List (String × Json))
    (i : Nat) (cs : List Char) (kv : String × Json),
    (∀ kv' ∈ acc, (kv' : String × Json).2.isObjLike = false) →
    kv ∈ flattenChars pre acc i cs → kv.2.isObjLike = false
  | _, _, _, [], kv, hacc, h => hacc kv h
  | pre, acc, i, c :: rest, kv, hacc, h => by
      simp only [flattenChars] at h
      refine flattenChars_scalar pre _ (i + 1) rest kv ?_ h
      intro kv' hkv'
      rcases mem_jsAssign _ _ _ _ hkv' with h1 | h1
      · exact hacc kv' h1
      · rw [h1]; rfl

mutual
theorem flattenJson_keys_nodup : ∀ (j : Json) (pre : String),
    ((flattenJson j pre).map Prod.fst).Nodup
  | .obj fs, pre => flattenFields_keys_nodup pre [] fs (by simp)
  | .arr es, pre => flattenElems_keys_nodup pre [] 0 es (by simp)
  | .null, _ => by simp [flattenJson]
  | .bool _, _ => by simp [flattenJson]
  | .num _, _ => by simp [flattenJson]
  | .str sv, pre => flattenChars_keys_nodup pre [] 0 sv.data (by simp)

theorem flattenFields_keys_nodup : ∀ (pre : String) (acc : List (String × Json))
    (fs : List (String × Json)), (acc.map Prod.fst).Nodup →
    ((flattenFields pre acc fs).map Prod.fst).Nodup
  | _, _, [], h => h
  | pre, acc, (k, v) :: rest, h => by
      simp only [flattenFields]
      split
      · exact flattenFields_keys_nodup pre _ rest (recMerge_keys_nodup _ _ h)
      · exact flattenFields_keys_nodup pre _ rest (jsAssign_keys_nodup _ _ _ h)

theorem flattenElems_keys_nodup : ∀ (pre : String) (acc : List (String × Json))
    (i : Nat) (es : List Json), (acc.map Prod.fst).Nodup →
    ((flattenElems pre acc i es).map Prod.fst).Nodup
  | _, _, _, [], h => h
  | pre, acc, i, v :: rest, h => by
      simp only [flattenElems]
      split
      · exact flattenElems_keys_nodup pre _ (i + 1) rest (recMerge_keys_nodup _ _ h)
      · exact flattenElems_keys_nodup pre _ (i + 1) rest (jsAssign_keys_nodup _ _ _ h)
end

theorem flattenObject_keys_nodup (j : Json) :
    ((flattenObject j).map Prod.fst).Nodup :=
  flattenJson_keys_nodup j ""

mutual
theorem flattenJson_scalar : ∀ (j : Json) (pre : String) (kv : String × Json),
    kv ∈ flattenJson j pre → kv.2.isObjLike = false
  | .obj fs, pre, kv => fun h =>
      flattenFields_scalar pre [] fs kv (by simp) h
  | .arr es, pre, kv => fun h =>
      flattenElems_scalar pre [] 0 es kv (by simp) h
  | .null, _, _ => by simp [flattenJson]
  | .bool _, _, _ => by simp [flattenJson]
  | .num _, _, _ => by simp [flattenJson]
  | .str sv, pre, kv => fun h =>
      flattenChars_scalar pre [] 0 sv.data kv (by simp) h

theorem flattenFields_scalar : ∀ (pre : String) (acc : List (String × Json))
    (fs : List (String × Json)) (kv : String × Json),
    (∀ kv' ∈ acc, (kv' : String × Json).2.isObjLike = false) →
    kv ∈ flattenFields pre acc fs → kv.2.isObjLike = false
  | _, _, [], kv, hacc, h => hacc kv h
  | pre, acc, (k, v) :: rest, kv, hacc, h => by
      simp only [flattenFields] at h
      split at h
      · refine flattenFields_scalar pre _ rest kv ?_ h
        intro kv' hkv'
        rcases mem_recMerge _ _ _ hkv' with h1 | h1
        · exact hacc kv' h1
        · exact flattenJson_scalar v _ kv' h1
      · refine flattenFields_scalar pre _ rest kv ?_ h
        intro kv' hkv'
        rcases mem_jsAssign _ _ _ _ hkv' with h1 | h1
        · exact hacc kv' h1
        · rw [h1]
          simpa using by
            rename_i hscal
            simpa using eq_false_of_ne_true hscal

theorem flattenElems_scalar : ∀ (pre : String) (acc : List (String × Json))
    (i : Nat) (es : List Json) (kv : String × Json),
    (∀ kv' ∈ acc, (kv' : String × Json).2.isObjLike = false) →
    kv ∈ flattenElems pre acc i es → kv.2.isObjLike = false
  | _, _, _, [], kv, hacc, h => hacc kv h
  | pre, acc, i, v :: rest, kv, hacc, h => by
      simp only [flattenElems] at h
      split at h
      · refine flattenElems_scalar pre _ (i + 1) rest kv ?_ h
        intro kv' hkv'
        rcases mem_recMerge _ _ _ hkv' with h1 | h1
        · exact hacc kv' h1
        · exact flattenJson_scalar v _ kv' h1
      · refine flattenElems_scalar pre _ (i + 1) rest kv ?_ h
        intro kv' hkv'
        rcases mem_jsAssign _ _ _ _ hkv' with h1 | h1
        · exact hacc kv' h1
        · rw [h1]
          simpa using by
            rename_i hscal
            simpa using eq_false_of_ne_true hscal
end

/-! ## Claim theorems -/

/-- C1: in the concrete scenario — reference locale fr with
common.json = {"a": {"b": "Bonjour"}}, locale en without common.json,
dryRun false, capability returning the line "common.json:::a.b: Hello" —
the run writes the file en/common.json, but with the contents
{"undefined": "::a.b: Hello"} rather than the {"a": {"b": "Hello"}} the
claim states.  The response parser splits the line at its first ':', which
lies inside the ':::' separator, so the recovered key is "common.json"; the
subsequent ':::' split then has no json-path part, and the leaf is stored
under the JS-coerced property name "undefined" with the colon-mangled value. -/
theorem translate_scenario_writes_undefined_leaf :
    (translateMissingKeys "root" "fr" false
        ⟨["fr", "en"],
          [("root/fr/common.json", .obj [("a", .obj [("b", .str "Bonjour")])])]⟩
        (fun _ => .ok "common.json:::a.b: Hello")).1.writes =
      [("root/en/common.json", .obj [("undefined", .str "::a.b: Hello")])] ∧
    Json.obj [("undefined", .str "::a.b: Hello")] ≠
      .obj [("a", .obj [("b", .str "Hello")])] := by
  decide

/-- C3 counterexample: flattenObject does recurse into an array value — the
elements of {"a": ["x", "y"]} appear at the index paths a.0 and a.1, and the
array does not appear as a single opaque leaf at a. -/
theorem flattenObject_array_not_opaque_cex :
    flattenObject (.obj [("a", .arr [.str "x", .str "y"])]) =
      [("a.0", .str "x"), ("a.1", .str "y")] ∧
    flattenObject (.obj [("a", .arr [.str "x", .str "y"])]) ≠
      [("a", .arr [.str "x", .str "y"])] := by
  decide

/-- The Object.entries view of an array from index i on: elements keyed by
their decimal indices. -/
def indexEntries (i : Nat) : List Json → List (String × Json)
  | [] => []
  | v :: rest => (toString i, v) :: indexEntries (i + 1) rest

theorem flattenElems_eq_flattenFields_indexEntries :
    ∀ (es : List Json) (pre : String) (acc : List (String × Json)) (i : Nat),
      flattenElems pre acc i es = flattenFields pre acc (indexEntries i es) := by
  intro es
  induction es with
  | nil => intro pre acc i; rfl
  | cons v rest ih =>
      intro pre acc i
      simp only [flattenElems, flattenFields, indexEntries]
      split
      · exact ih pre _ (i + 1)
      · exact ih pre _ (i + 1)

/-- C3 amended: an array value is not an opaque scalar; flattenObject
recurses into it exactly as it would into an object whose keys are the
element indices, so array elements appear (recursively) at dotted paths with
numeric index segments. -/
theorem flatten_array_recurses_like_indexed_object :
    ∀ (es : List Json) (pre : String),
      flattenJson (.arr es) pre = flattenJson (.obj (indexEntries 0 es)) pre := by
  intro es pre
  show flattenElems pre [] 0 es = flattenFields pre [] (indexEntries 0 es)
  exact flattenElems_eq_flattenFields_indexEntries es pre [] 0

/-- C10: every value of a flattened document is a scalar (never an array or
non-null object), and a subtree that is an empty object contributes no
entries at all — flattening drops it silently. -/
theorem flattenObject_values_scalar_and_empty_obj_dropped :
    (∀ (doc : Json) (kv : String × Json),
      kv ∈ flattenObject doc → kv.2.isObjLike = false) ∧
    (∀ (pre : String) (acc fs : List (String × Json)) (k : String),
      flattenFields pre acc ((k, Json.obj []) :: fs) = flattenFields pre acc fs) := by
  constructor
  · intro doc kv h
    exact flattenJson_scalar doc "" kv h
  · intro pre acc fs k
    rfl

/-- C10 witness: the scalar-value invariant applied at a concrete document
and entry. -/
theorem flattenObject_values_scalar_witness :
    (("a", Json.null) ∈ flattenObject (Json.obj [("a", Json.null)])) ∧
      Json.null.isObjLike = false :=
  ⟨by decide,
    flattenObject_values_scalar_and_empty_obj_dropped.1
      (Json.obj [("a", Json.null)]) ("a", Json.null) (by decide)⟩

/-- The dry-run branch of the per-locale pipeline: report only. -/
theorem processLocale_dryRun (folderPath : String) (resp : String → Except String String)
    (files : List (String × Json)) (locale : String) (entries : List (String × Json)) :
    processLocale folderPath resp true files locale entries =
      (⟨[], [],
        [if entries.length = 0 then Report.nothingToDo locale
         else Report.dryRunPreview locale entries]⟩, .ok ()) := by
  by_cases h : entries.length = 0 <;> simp [processLocale, h]

/-- C6: with dryRun set, a run performs no capability call and no file
write, settles fulfilled, and its reports are exactly the missing-entry map,
locale by locale — the gray nothing-to-do line for an empty entry set and
the yellow preview of the entries verbatim otherwise. -/
theorem dry_run_reads_only :
    ∀ (folderPath referenceLocale : String) (w : World)
      (resp : String → Except String String),
      (translateMissingKeys folderPath referenceLocale true w resp).1.calls = [] ∧
      (translateMissingKeys folderPath referenceLocale true w resp).1.writes = [] ∧
      (translateMissingKeys folderPath referenceLocale true w resp).2 = .ok () ∧
      (translateMissingKeys folderPath referenceLocale true w resp).1.reports =
        (getAllMissingTranslations folderPath referenceLocale w).map
          (fun le => if le.2.length = 0 then Report.nothingToDo le.1
                     else Report.dryRunPreview le.1 le.2) := by
  intro fp ref w resp
  simp only [translateMissingKeys]
  induction getAllMissingTranslations fp ref w with
  | nil => simp [catEffects, firstError]
  | cons hd tl ih =>
      simp only [List.map_cons, processLocale_dryRun, catEffects, firstError] at *
      simpa using ih

/-- Splitting at ':::' leaves a colon-free string whole. -/
theorem splitSeqF_no_colon :
    ∀ (cs : List Char) (fuel : Nat), cs.length ≤ fuel → ':' ∉ cs →
      splitSeqF ':' [':', ':'] fuel cs = [cs] := by
  intro cs
  induction cs with
  | nil => intro fuel _ _; cases fuel <;> rfl
  | cons c rest ih =>
      intro fuel hf hc
      cases fuel with
      | zero => simp at hf
      | succ f =>
          simp only [List.mem_cons] at hc
          push_neg at hc
          have hcne : ¬(c = ':' ∧ leadsWith [':', ':'] rest = true) := by
            intro hcon
            exact hc.1 hcon.1.symm
          simp only [splitSeqF, if_neg hcne]
          rw [ih f (by simpa using hf) hc.2]

/-- fullKey.split(':::') on a key containing no colon is the singleton of
the key itself. -/
theorem splitTripleColon_no_colon (s : String) (h : ':' ∉ s.data) :
    splitTripleColon s = [s] := by
  obtain ⟨d⟩ := s
  simp only [splitTripleColon, splitSeq]
  rw [splitSeqF_no_colon d d.length (le_refl _) h]
  rfl

theorem splitCharsOn_ne_nil (sep : Char) (cs : List Char) : splitCharsOn sep cs ≠ [] := by
  cases cs with
  | nil => simp [splitCharsOn]
  | cons c rest =>
      simp only [splitCharsOn]
      rcases h : splitCharsOn sep rest with _ | ⟨s, ss⟩
      · simp
      · by_cases hc : c = sep <;> simp [hc]

/-- C4 counterexample: a translated entry whose key has no ':::' (here the
key "foo", as produced by parsing the response line "foo: bar") is not
skipped: the run creates the file en/foo with contents
{"undefined": "bar"}, using the whole key as the relative path. -/
theorem malformed_key_still_writes_cex :
    (translateMissingKeys "root" "fr" false
        ⟨["fr", "en"], [("root/fr/c.json", .obj [("k", .str "v")])]⟩
        (fun _ => .ok "foo: bar")).1.writes =
      [("root/en/foo", .obj [("undefined", .str "bar")])] ∧
    ([("root/en/foo", Json.obj [("undefined", .str "bar")])] : List (String × Json)) ≠
      [] := by
  decide

/-- C4 amended: an entry whose key cannot be split at ':::' (every key the
response parser produces is colon-free) is not skipped; the whole key is
taken as the relative file path and the json path is the undefined second
destructuring component, whose property access coerces to the name
"undefined".  The empty key is reachable: the parser skips a line whose
part before the first ':' is empty (falsy), but a whitespace-only part such
as in the line " : x" is truthy and trims to the empty key.  For it,
path.join drops the empty segment and the target collapses to the locale
directory itself: reading it fails with EISDIR and no file is written for
that entry, rejecting the locale's pipeline.  For a nonempty key that
path.join keeps verbatim (no '/', not '.' or '..'; keys path.join would
normalize are outside this statement, as the model joins by plain
concatenation) a file IS written at rootDir/locale/key — when no file
exists there yet, with contents {"undefined": value}.  Entries are
processed independently of each other. -/
theorem malformed_key_writes_undefined_file :
    ∀ (folderPath locale : String) (files : List (String × Json))
      (fullKey value : String),
      ':' ∉ fullKey.data →
      (fullKey = "" →
        writeForEntry folderPath locale files fullKey value =
          .error "EISDIR: illegal operation on a directory") ∧
      (fullKey ≠ "" → '/' ∉ fullKey.data → fullKey ≠ "." → fullKey ≠ ".." →
        recLookup files (folderPath ++ "/" ++ locale ++ "/" ++ fullKey) = none →
        writeForEntry folderPath locale files fullKey value =
          .ok (folderPath ++ "/" ++ locale ++ "/" ++ fullKey,
            .obj [("undefined", .str value)])) := by
  intro fp locale files fullKey value h1
  have hsplit := splitTripleColon_no_colon fullKey h1
  constructor
  · intro he
    subst he
    simp [writeForEntry, hsplit]
  · intro hne hsl hd1 hd2 h2
    have hcast : castPath "undefined" = ["undefined"] := by decide
    have hj : jsAssign ([] : List (String × Json)) "undefined" (.str value) =
        [("undefined", .str value)] := by
      rw [jsAssign_eq_recSet _ _ _ (by decide)]
      rfl
    simp only [writeForEntry, hsplit, List.headD, if_neg hne, List.get?, Option.getD, h2,
      unflattenObject, flattenObject, flattenJson, flattenFields, hj,
      List.foldl, lodashSet, hcast, setPath, assignValue]

/-- C4 amended witness: the EISDIR failure at the concrete empty key and the
malformed-key write at the concrete entry ("foo", "bar"). -/
theorem malformed_key_writes_undefined_file_witness :
    (':' ∉ "".data) ∧ (':' ∉ "foo".data) ∧
      writeForEntry "root" "en" [] "" "x" =
        .error "EISDIR: illegal operation on a directory" ∧
      writeForEntry "root" "en" [] "foo" "bar" =
        .ok ("root/en/foo", .obj [("undefined", .str "bar")]) :=
  ⟨by decide, by decide,
    (malformed_key_writes_undefined_file "root" "en" [] "" "x" (by decide)).1 rfl,
    (malformed_key_writes_undefined_file "root" "en" [] "foo" "bar" (by decide)).2
      (by decide) (by decide) (by decide) (by decide) (by decide)⟩

/-- Promise.all settlement is fulfilled exactly when every pipeline is. -/
theorem firstError_ok_iff :
    ∀ l : List (Except String Unit), firstError l = .ok () ↔ ∀ e ∈ l, e = .ok () := by
  intro l
  induction l with
  | nil => simp [firstError]
  | cons hd tl ih =>
      cases hd with
      | ok u =>
          cases u
          simp [firstError, ih]
      | error e => simp [firstError]

/-- The scenario of the C5 counterexample: two non-reference locales both
missing the same key. -/
def failoverWorld : World :=
  ⟨["fr", "en", "de"], [("root/fr/c.json", .obj [("k", .str "v")])]⟩

/-- The capability of the C5 counterexample: fails for en, succeeds for de. -/
def failoverResp : String → Except String String :=
  fun l => if l = "en" then .error "boom" else .ok "a: x"

/-- C5 counterexample: when the capability fails for en, the promise
translateMissingKeys returns settles rejected with that error — the run does
not complete with a per-locale error report once all pipelines settle, as
the claim states.  (The de pipeline, already started, is not cancelled: its
write is still in the trace.) -/
theorem capability_failure_rejects_run_cex :
    ((translateMissingKeys "root" "fr" false failoverWorld failoverResp).2 =
      .error "boom") ∧
    ((translateMissingKeys "root" "fr" false failoverWorld failoverResp).2 ≠
      .ok ()) ∧
    (("root/de/a", Json.obj [("undefined", .str "x")]) ∈
      (translateMissingKeys "root" "fr" false failoverWorld failoverResp).1.writes) := by
  decide

/-- C5 amended: the run's returned promise settles fulfilled exactly when
every locale pipeline does — a single capability failure makes the whole
run reject (Promise.all first-rejection semantics) instead of completing
with a per-locale error report; the other pipelines are not cancelled, and
each locale's writes occur in the run's trace regardless of the others. -/
theorem run_rejects_with_first_failure :
    ∀ (folderPath referenceLocale : String) (dryRun : Bool) (w : World)
      (resp : String → Except String String),
      ((translateMissingKeys folderPath referenceLocale dryRun w resp).2 = .ok () ↔
        ∀ le ∈ getAllMissingTranslations folderPath referenceLocale w,
          (processLocale folderPath resp dryRun w.files le.1 le.2).2 = .ok ()) ∧
      (∀ le ∈ getAllMissingTranslations folderPath referenceLocale w,
        ∀ wr ∈ (processLocale folderPath resp dryRun w.files le.1 le.2).1.writes,
          wr ∈ (translateMissingKeys folderPath referenceLocale dryRun w resp).1.writes) := by
  intro fp ref dryRun w resp
  constructor
  · simp only [translateMissingKeys]
    rw [firstError_ok_iff]
    simp only [List.map_map, List.mem_map, Function.comp]
    constructor
    · intro h le hle
      exact h _ ⟨le, hle, rfl⟩
    · rintro h e ⟨le, hle, rfl⟩
      exact h le hle
  · intro le hle wr hwr
    simp only [translateMissingKeys, catEffects, List.map_map, List.mem_flatten]
    refine ⟨(processLocale fp resp dryRun w.files le.1 le.2).1.writes, ?_, hwr⟩
    exact List.mem_map.mpr ⟨le, hle, rfl⟩

/-- C5 amended witness: in the failover scenario, the de write produced by
the de pipeline occurs in the whole run's trace. -/
theorem run_rejects_with_first_failure_witness :
    (("de", [("c.json:::k", Json.str "v")]) ∈
      getAllMissingTranslations "root" "fr" failoverWorld) ∧
    (("root/de/a", Json.obj [("undefined", .str "x")]) ∈
      (translateMissingKeys "root" "fr" false failoverWorld failoverResp).1.writes) :=
  ⟨by decide,
    (run_rejects_with_first_failure "root" "fr" false failoverWorld failoverResp).2
      ("de", [("c.json:::k", Json.str "v")]) (by decide)
      ("root/de/a", Json.obj [("undefined", .str "x")]) (by decide)⟩

theorem string_append_left_cancel {a b c : String} (h : a ++ b = a ++ c) : b = c := by
  have hd := congrArg String.data h
  simp only [String.data_append] at hd
  exact String.ext (List.append_cancel_left hd)

/-- C7: for one reference file, the missing entries are exactly the set
difference of the reference file's flattened keys minus the target file's
flattened keys — independent of the target's own ordering or nesting, since
only its flattened key set enters — keyed relativePath:::dottedPath and
valued with the reference text; and a non-existent target file is read as
the empty document, identically to an empty target file, not as an error. -/
theorem missing_entries_are_set_difference :
    ∀ (rel : String) (refJson : Json) (target : Option Json) (k : String) (v : Json),
      ((rel ++ ":::" ++ k, v) ∈ missingEntriesForFile rel refJson target ↔
        ((k, v) ∈ flattenObject refJson ∧
          k ∉ (flattenObject (target.getD (.obj []))).map Prod.fst)) ∧
      missingEntriesForFile rel refJson none =
        missingEntriesForFile rel refJson (some (.obj [])) := by
  intro rel refJson target k v
  constructor
  · constructor
    · intro h
      simp only [missingEntriesForFile, List.mem_map] at h
      obtain ⟨k', hk', heq⟩ := h
      have hfst : rel ++ ":::" ++ k' = rel ++ ":::" ++ k := congrArg Prod.fst heq
      have hkk : k' = k := by
        have : (rel ++ ":::") ++ k' = (rel ++ ":::") ++ k := by
          simpa [String.append_assoc] using hfst
        exact string_append_left_cancel this
      subst hkk
      have hv : (recLookup (flattenObject refJson) k').getD .null = v :=
        congrArg Prod.snd heq
      simp only [difference, List.mem_filter] at hk'
      obtain ⟨hmem, hnotin⟩ := hk'
      have hsome : (recLookup (flattenObject refJson) k').isSome = true :=
        (recLookup_isSome_iff _ _).mpr hmem
      obtain ⟨v0, hv0⟩ := Option.isSome_iff_exists.mp hsome
      rw [hv0] at hv
      simp only [Option.getD_some] at hv
      subst hv
      refine ⟨recLookup_mem _ _ _ hv0, ?_⟩
      intro hcon
      simp only [Bool.not_eq_true'] at hnotin
      rw [Bool.eq_false_iff] at hnotin
      exact hnotin (List.elem_iff.mpr hcon)
    · rintro ⟨hmem, hnotin⟩
      have hk : k ∈ (flattenObject refJson).map Prod.fst :=
        List.mem_map_of_mem Prod.fst hmem
      have hlook : recLookup (flattenObject refJson) k = some v :=
        mem_recLookup _ _ _ (flattenObject_keys_nodup refJson) hmem
      simp only [missingEntriesForFile, List.mem_map]
      refine ⟨k, ?_, by simp [hlook]⟩
      simp only [difference, List.mem_filter]
      refine ⟨hk, ?_⟩
      simp only [Bool.not_eq_true']
      rw [Bool.eq_false_iff]
      intro hcon
      exact hnotin (List.elem_iff.mp hcon)
  · rfl

/-! ## Characterizing the locale regex -/

theorem mem_matchRem_eps (cs s : List Char) : s ∈ matchRem .eps cs ↔ s = cs := by
  simp [matchRem]

theorem mem_matchRem_cls (p : Char → Bool) (cs s : List Char) :
    s ∈ matchRem (.cls p) cs ↔ ∃ c, cs = c :: s ∧ p c = true := by
  cases cs with
  | nil => simp [matchRem]
  | cons c rest =>
      simp only [matchRem]
      by_cases hp : p c = true
      · simp only [if_pos hp, List.mem_singleton]
        constructor
        · rintro rfl; exact ⟨c, rfl, hp⟩
        · rintro ⟨c', heq, hp'⟩
          injection heq with h1 h2
          rw [h2]
      · simp only [if_neg hp, List.not_mem_nil, false_iff]
        rintro ⟨c', heq, hp'⟩
        injection heq with h1 h2
        exact hp (h1 ▸ hp')

theorem mem_matchRem_seq (a b : RE) (cs s : List Char) :
    s ∈ matchRem (.seq a b) cs ↔ ∃ mid, mid ∈ matchRem a cs ∧ s ∈ matchRem b mid := by
  simp [matchRem, List.mem_flatMap]

theorem mem_matchRem_alt (a b : RE) (cs s : List Char) :
    s ∈ matchRem (.alt a b) cs ↔ s ∈ matchRem a cs ∨ s ∈ matchRem b cs := by
  simp [matchRem]

theorem mem_matchRem_repN_cls (p : Char → Bool) :
    ∀ (n : Nat) (cs s : List Char),
      s ∈ matchRem (repN n (.cls p)) cs ↔
        ∃ w, cs = w ++ s ∧ w.length = n ∧ ∀ c ∈ w, p c = true := by
  intro n
  induction n with
  | zero =>
      intro cs s
      simp only [repN, mem_matchRem_eps]
      constructor
      · rintro rfl; exact ⟨[], by simp⟩
      · rintro ⟨w, heq, hlen, _⟩
        rw [List.length_eq_zero] at hlen
        simp [hlen] at heq
        rw [heq]
  | succ n ih =>
      intro cs s
      simp only [repN, mem_matchRem_seq, mem_matchRem_cls, ih]
      constructor
      · rintro ⟨mid, ⟨c, rfl, hp⟩, w, rfl, hlen, hall⟩
        refine ⟨c :: w, rfl, by simp [hlen], ?_⟩
        intro x hx
        rcases List.mem_cons.mp hx with rfl | hx
        · exact hp
        · exact hall x hx
      · rintro ⟨w, rfl, hlen, hall⟩
        cases w with
        | nil => simp at hlen
        | cons c w' =>
            refine ⟨w' ++ s, ⟨c, by simp, hall c (by simp)⟩, w', rfl, ?_, ?_⟩
            · simpa using hlen
            · intro x hx; exact hall x (List.mem_cons_of_mem _ hx)

/-- A language segment: 2 to 4 letters. -/
def langSeg (w : List Char) : Prop :=
  2 ≤ w.length ∧ w.length ≤ 4 ∧ ∀ c ∈ w, c.isAlpha = true

/-- A script segment: exactly 4 letters. -/
def scriptSeg (w : List Char) : Prop :=
  w.length = 4 ∧ ∀ c ∈ w, c.isAlpha = true

/-- A region segment: exactly 2 letters or exactly 3 digits. -/
def regionSeg (w : List Char) : Prop :=
  (w.length = 2 ∧ ∀ c ∈ w, c.isAlpha = true) ∨
  (w.length = 3 ∧ ∀ c ∈ w, c.isDigit = true)

/-- The language of the locale pattern, spelled structurally: a language
segment, optionally followed by a separator and a script segment, optionally
followed by a separator and a region segment. -/
def LocaleShape (sepP : Char → Bool) (cs : List Char) : Prop :=
  langSeg cs ∨
  (∃ l s1 w, cs = l ++ s1 :: w ∧ langSeg l ∧ sepP s1 = true ∧
    (scriptSeg w ∨ regionSeg w)) ∨
  (∃ l s1 w1 s2 w2, cs = l ++ s1 :: (w1 ++ s2 :: w2) ∧ langSeg l ∧ sepP s1 = true ∧
    scriptSeg w1 ∧ sepP s2 = true ∧ regionSeg w2)

theorem reFull_localeREWith_iff (sepP : Char → Bool) (cs : List Char) :
    reFull (localeREWith sepP) cs = true ↔ LocaleShape sepP cs := by
  rw [reFull, List.elem_iff]
  simp only [localeREWith, opt, alphaC, digitC, mem_matchRem_seq, mem_matchRem_alt,
    mem_matchRem_eps, mem_matchRem_cls, mem_matchRem_repN_cls]
  constructor
  · rintro ⟨m1, hlang, m2, hopt1, hopt2⟩
    obtain ⟨w, rfl, hwlen, hwall⟩ :
        ∃ w, cs = w ++ m1 ∧ (w.length = 2 ∨ w.length = 3 ∨ w.length = 4) ∧
          ∀ c ∈ w, c.isAlpha = true := by
      rcases hlang with ⟨w, h1, h2, h3⟩ | ⟨w, h1, h2, h3⟩ | ⟨w, h1, h2, h3⟩
      · exact ⟨w, h1, Or.inl h2, h3⟩
      · exact ⟨w, h1, Or.inr (Or.inl h2), h3⟩
      · exact ⟨w, h1, Or.inr (Or.inr h2), h3⟩
    have hw : langSeg w := ⟨by omega, by omega, hwall⟩
    rcases hopt1 with ⟨mid, ⟨s1, rfl, hs1⟩, w4, rfl, hw4len, hw4all⟩ | rfl
    · -- script group taken: m1 = s1 :: (w4 ++ m2)
      rcases hopt2 with ⟨mid2, ⟨s2, rfl, hs2⟩, hreg⟩ | rfl
      · -- region group also taken: m2 = s2 :: mid2, [] left after region
        obtain ⟨w2, hmid2, hw2⟩ :
            ∃ w2, mid2 = w2 ∧ regionSeg w2 := by
          rcases hreg with ⟨w2, h1, h2, h3⟩ | ⟨w2, h1, h2, h3⟩
          · refine ⟨mid2, rfl, Or.inl ⟨?_, ?_⟩⟩
            · subst h1; simpa using h2
            · subst h1; simpa using h3
          · refine ⟨mid2, rfl, Or.inr ⟨?_, ?_⟩⟩
            · subst h1; simpa using h2
            · subst h1; simpa using h3
        subst hmid2
        exact Or.inr (Or.inr ⟨w, s1, w4, s2, mid2, rfl, hw, hs1,
          ⟨hw4len, hw4all⟩, hs2, hw2⟩)
      · -- no region group: m2 = []
        exact Or.inr (Or.inl ⟨w, s1, w4, by simp, hw, hs1,
          Or.inl ⟨by simpa using hw4len, hw4all⟩⟩)
    · -- no script group: m2 = m1
      rcases hopt2 with ⟨mid2, ⟨s2, rfl, hs2⟩, hreg⟩ | rfl
      · obtain ⟨w2, hmid2, hw2⟩ : ∃ w2, mid2 = w2 ∧ regionSeg w2 := by
          rcases hreg with ⟨w2, h1, h2, h3⟩ | ⟨w2, h1, h2, h3⟩
          · refine ⟨mid2, rfl, Or.inl ⟨?_, ?_⟩⟩
            · subst h1; simpa using h2
            · subst h1; simpa using h3
          · refine ⟨mid2, rfl, Or.inr ⟨?_, ?_⟩⟩
            · subst h1; simpa using h2
            · subst h1; simpa using h3
        subst hmid2
        exact Or.inr (Or.inl ⟨w, s2, mid2, rfl, hw, hs2, Or.inr hw2⟩)
      · exact Or.inl (by simpa using hw)
  · intro h
    rcases h with hw | ⟨l, s1, w, rfl, hl, hs1, hgrp⟩ |
      ⟨l, s1, w1, s2, w2, rfl, hl, hs1, hw1, hs2, hw2⟩
    · -- bare language
      refine ⟨[], ?_, [], Or.inr rfl, Or.inr rfl⟩
      obtain ⟨h2, h4, hall⟩ := hw
      have : cs.length = 2 ∨ cs.length = 3 ∨ cs.length = 4 := by omega
      rcases this with h | h | h
      · exact Or.inl ⟨cs, by simp, h, hall⟩
      · exact Or.inr (Or.inl ⟨cs, by simp, h, hall⟩)
      · exact Or.inr (Or.inr ⟨cs, by simp, h, hall⟩)
    · -- language plus one group
      obtain ⟨hl2, hl4, hlall⟩ := hl
      rcases hgrp with ⟨hw4, hwall⟩ | hreg
      · -- the group is a script: take the first optional, skip the second
        refine ⟨s1 :: w, ?_, [], Or.inl ⟨w ++ [], ⟨s1, by simp, hs1⟩, w, by simp,
          by simpa using hw4, hwall⟩, Or.inr rfl⟩
        have : l.length = 2 ∨ l.length = 3 ∨ l.length = 4 := by omega
        rcases this with h | h | h
        · exact Or.inl ⟨l, rfl, h, hlall⟩
        · exact Or.inr (Or.inl ⟨l, rfl, h, hlall⟩)
        · exact Or.inr (Or.inr ⟨l, rfl, h, hlall⟩)
      · -- the group is a region: skip the first optional, take the second
        refine ⟨s1 :: w, ?_, s1 :: w, Or.inr rfl, Or.inl ⟨w, ⟨s1, rfl, hs1⟩, ?_⟩⟩
        · have : l.length = 2 ∨ l.length = 3 ∨ l.length = 4 := by omega
          rcases this with h | h | h
          · exact Or.inl ⟨l, rfl, h, hlall⟩
          · exact Or.inr (Or.inl ⟨l, rfl, h, hlall⟩)
          · exact Or.inr (Or.inr ⟨l, rfl, h, hlall⟩)
        · rcases hreg with ⟨h2, hall⟩ | ⟨h3, hall⟩
          · exact Or.inl ⟨w, by simp, h2, hall⟩
          · exact Or.inr ⟨w, by simp, h3, hall⟩
    · -- language plus both groups
      obtain ⟨hl2, hl4, hlall⟩ := hl
      obtain ⟨hw14, hw1all⟩ := hw1
      refine ⟨s1 :: (w1 ++ s2 :: w2), ?_, s2 :: w2,
        Or.inl ⟨w1 ++ s2 :: w2, ⟨s1, rfl, hs1⟩, w1, by simp, hw14, hw1all⟩,
        Or.inl ⟨w2, ⟨s2, rfl, hs2⟩, ?_⟩⟩
      · have : l.length = 2 ∨ l.length = 3 ∨ l.length = 4 := by omega
        rcases this with h | h | h
        · exact Or.inl ⟨l, rfl, h, hlall⟩
        · exact Or.inr (Or.inl ⟨l, rfl, h, hlall⟩)
        · exact Or.inr (Or.inr ⟨l, rfl, h, hlall⟩)
      · rcases hw2 with ⟨h2, hall⟩ | ⟨h3, hall⟩
        · exact Or.inl ⟨w2, by simp, h2, hall⟩
        · exact Or.inr ⟨w2, by simp, h3, hall⟩

/-- C8 counterexample: the directory name en_US is retained by locale
discovery — the separator class of the source regex is [_-] — although it
does not match the hyphen-separated grammar language[-script][-region] that
the claim states, so discovery does not retain exactly that grammar. -/
theorem locale_discovery_underscore_cex :
    discoveredLocales ["en_US"] = ["en_US"] ∧ specLocaleTag "en_US" = false := by
  decide

/-- C8 amended: locale discovery retains exactly the immediate entries of
the root folder that match language[sep script][sep region] with a 2-4
letter language, optional 4-letter script, optional 2-letter or 3-digit
region, where the separator may be '-' or '_'; the hyphen-only grammar of
the claim is a strict subset of what is retained, and the name xx-yy-zz
(too many segments) is excluded. -/
theorem locale_discovery_retains_grammar :
    (∀ (dirs : List String) (d : String),
      d ∈ discoveredLocales dirs ↔
        d ∈ dirs ∧ LocaleShape (fun c => c == '-' || c == '_') d.data) ∧
    isLocale "xx-yy-zz" = false ∧
    (∀ s : String, specLocaleTag s = true → isLocale s = true) := by
  refine ⟨?_, by decide, ?_⟩
  · intro dirs d
    simp only [discoveredLocales, List.mem_filter]
    constructor
    · rintro ⟨h1, h2⟩
      exact ⟨h1, (reFull_localeREWith_iff _ _).mp h2⟩
    · rintro ⟨h1, h2⟩
      exact ⟨h1, (reFull_localeREWith_iff _ _).mpr h2⟩
  · intro s h
    rw [specLocaleTag, reFull_localeREWith_iff] at h
    rw [isLocale, reFull_localeREWith_iff]
    rcases h with h | ⟨l, s1, w, he, hl, hs1, hgrp⟩ |
      ⟨l, s1, w1, s2, w2, he, hl, hs1, hw1, hs2, hw2⟩
    · exact Or.inl h
    · refine Or.inr (Or.inl ⟨l, s1, w, he, hl, ?_, hgrp⟩)
      have h1 : (s1 == '-') = true := hs1
      simp [h1]
    · refine Or.inr (Or.inr ⟨l, s1, w1, s2, w2, he, hl, ?_, hw1, ?_, hw2⟩)
      · have h1 : (s1 == '-') = true := hs1
        simp [h1]
      · have h2 : (s2 == '-') = true := hs2
        simp [h2]

/-- C8 amended witness: a hyphen-separated tag accepted by the spec grammar
is accepted by the source's discovery predicate. -/
theorem locale_discovery_retains_grammar_witness :
    specLocaleTag "en-GB" = true ∧ isLocale "en-GB" = true :=
  ⟨by decide, locale_discovery_retains_grammar.2.2 "en-GB" (by decide)⟩

/-! ## The flatten/unflatten round trip

The round trip of flattenObject and unflattenObject is analysed through a
segment-level view of a document: its leaves listed with their key paths as
segment lists.  Flattening a suitable document produces exactly those leaves
with dot-joined keys, lodash castPath recovers the segment lists from the
joined keys, and folding lodash set over the leaves rebuilds the document. -/

theorem recSet_lookup_self {α : Type} (m : List (String × α)) (k : String) (v : α)
    (h : recLookup m k = some v) : recSet m k v = m := by
  induction m with
  | nil => simp [recLookup] at h
  | cons hd tl ih =>
      obtain ⟨k', v'⟩ := hd
      by_cases hk : k' = k
      · simp only [recLookup, if_pos hk, Option.some.injEq] at h
        simp [recSet, hk, h]
      · simp only [recLookup, if_neg hk] at h
        simp [recSet, hk, ih h]

theorem recLookup_recSet_self {α : Type} (m : List (String × α)) (k : String) (v : α) :
    recLookup (recSet m k v) k = some v := by
  induction m with
  | nil => simp [recSet, recLookup]
  | cons hd tl ih =>
      obtain ⟨k', v'⟩ := hd
      by_cases hk : k' = k
      · simp [recSet, recLookup, hk]
      · simp [recSet, recLookup, hk, ih]

theorem recSet_recSet {α : Type} (m : List (String × α)) (k : String) (a b : α) :
    recSet (recSet m k a) k b = recSet m k b := by
  induction m with
  | nil => simp [recSet]
  | cons hd tl ih =>
      obtain ⟨k', v'⟩ := hd
      by_cases hk : k' = k
      · simp [recSet, hk]
      · simp [recSet, hk, ih]

theorem recLookup_append_right {α : Type} (m : List (String × α)) (k : String) (v : α)
    (h : k ∉ m.map Prod.fst) : recLookup (m ++ [(k, v)]) k = some v := by
  induction m with
  | nil => simp [recLookup]
  | cons hd tl ih =>
      obtain ⟨k', v'⟩ := hd
      simp only [List.map_cons, List.mem_cons] at h
      push_neg at h
      have hk : ¬k' = k := fun hh => h.1 hh.symm
      simp only [List.cons_append, recLookup, if_neg hk]
      exact ih h.2

theorem recSet_append_last {α : Type} (m : List (String × α)) (k : String) (a b : α)
    (h : k ∉ m.map Prod.fst) : recSet (m ++ [(k, a)]) k b = m ++ [(k, b)] := by
  induction m with
  | nil => simp [recSet]
  | cons hd tl ih =>
      obtain ⟨k', v'⟩ := hd
      simp only [List.map_cons, List.mem_cons] at h
      push_neg at h
      have hk : ¬k' = k := fun hh => h.1 hh.symm
      simp only [List.cons_append, recSet, if_neg hk]
      rw [List.append_eq, ih h.2]

/-- The leaves of a document below a dotted path, as flattening emits them:
an entry per scalar leaf, keyed by the dot-joined path.  Array values are
outside the round-trip domain and are listed as leaves here. -/
def leaves (pre : String) : List (String × Json) → List (String × Json)
  | [] => []
  | (k, v) :: rest =>
      (match v with
        | .obj gs => leaves (joinKey pre k) gs
        | v' => [(joinKey pre k, v')]) ++ leaves pre rest

/-- The leaves of a document with their key paths as segment lists. -/
def segLeaves : List (String × Json) → List (List String × Json)
  | [] => []
  | (k, v) :: rest =>
      (match v with
        | .obj gs => (segLeaves gs).map fun pv => (k :: pv.1, pv.2)
        | v' => [([k], v')]) ++ segLeaves rest

/-- Dot-joining of a key path, exactly as the nested flattening calls build
it: the first segment is the initial prefix, each further segment is
appended through joinKey. -/
def dottedPath : List String → String
  | [] => ""
  | k :: rest => rest.foldl joinKey k

/-- Folding lodash set at the segment level over a list of leaves. -/
def setPathFold (acc : Json) (entries : List (List String × Json)) : Json :=
  entries.foldl (fun a pv => setPath a pv.1 pv.2) acc

/-- A key a lodash dot path transports unchanged: no '.', '[' or ']'. -/
def plainKey (k : String) : Bool :=
  !(k.data.contains '.') && !(k.data.contains '[') && !(k.data.contains ']')

mutual
/-- Values in the round-trip domain: scalars, or nonempty objects of good
fields; arrays are excluded. -/
def goodVal : Json → Bool
  | .obj fs => !fs.isEmpty && goodFields false fs
  | .arr _ => false
  | _ => true

/-- Fields in the round-trip domain (top marks the document root): keys are
free of lodash path syntax and unique among their siblings; below the root a
key must not be integer-like (lodash set would build an array), and at the
root an empty key may not carry an object value (flattening collapses that
level); no key is "__proto__" (at the root, flattening loses the leaf to the
Object.prototype setter; below it, the unflattening assignment does); values
are good. -/
def goodFields (top : Bool) : List (String × Json) → Bool
  | [] => true
  | (k, v) :: rest =>
      plainKey k && (top || !isIndexStr k) && (!(top && k == "" && v.isObjLike)) &&
        !((rest.map Prod.fst).contains k) && !(k == "__proto__") &&
        goodVal v && goodFields top rest
end

theorem splitCharsOn_no_sep (sep : Char) (a : List Char) (h : sep ∉ a) :
    splitCharsOn sep a = [a] := by
  induction a with
  | nil => rfl
  | cons c rest ih =>
      simp only [List.mem_cons] at h
      push_neg at h
      simp only [splitCharsOn, ih h.2, if_neg h.1.symm]

theorem splitCharsOn_append (sep : Char) (a b : List Char) (h : sep ∉ a) :
    splitCharsOn sep (a ++ sep :: b) = a :: splitCharsOn sep b := by
  induction a with
  | nil =>
      simp only [List.nil_append, splitCharsOn]
      rcases hb : splitCharsOn sep b with _ | ⟨s, ss⟩
      · exact absurd hb (splitCharsOn_ne_nil sep b)
      · simp
  | cons c rest ih =>
      simp only [List.mem_cons] at h
      push_neg at h
      simp only [List.cons_append, splitCharsOn, List.append_eq, ih h.2,
        if_neg h.1.symm]

theorem string_ne_empty_of_data (s : String) (h : s.data ≠ []) : s ≠ "" := by
  intro hcon
  rw [hcon] at h
  exact h rfl

theorem joinKey_data (pre k : String) (h : pre ≠ "") :
    (joinKey pre k).data = pre.data ++ '.' :: k.data := by
  simp [joinKey, h, String.data_append]

/-- A joined key is "__proto__" only when the prefix is empty and the key
itself is: with a nonempty prefix the joined key contains a dot, which
"__proto__" does not. -/
theorem joinKey_ne_proto (pre k : String) (hk : k ≠ "__proto__") :
    joinKey pre k ≠ "__proto__" := by
  by_cases hpre : pre = ""
  · simpa [joinKey, hpre] using hk
  · intro hcon
    have hdata : (joinKey pre k).data = pre.data ++ '.' :: k.data :=
      joinKey_data pre k hpre
    rw [hcon] at hdata
    have hdot : '.' ∈ "__proto__".data := by rw [hdata]; simp
    exact (by decide : ¬('.' ∈ "__proto__".data)) hdot

theorem foldl_joinKey_data (segs : List String) : ∀ pre : String, pre ≠ "" →
    (segs.foldl joinKey pre).data =
      pre.data ++ segs.flatMap (fun k => '.' :: k.data) := by
  induction segs with
  | nil => intro pre _; simp
  | cons k rest ih =>
      intro pre hpre
      have hdata : (joinKey pre k).data = pre.data ++ '.' :: k.data :=
        joinKey_data pre k hpre
      have hne : joinKey pre k ≠ "" := by
        apply string_ne_empty_of_data
        rw [hdata]
        intro hcon
        have := congrArg List.length hcon
        simp at this
      simp only [List.foldl_cons, ih (joinKey pre k) hne, hdata, List.flatMap_cons]
      simp

theorem contains_eq_false_iff {α : Type} [BEq α] [LawfulBEq α]
    (l : List α) (a : α) : l.contains a = false ↔ a ∉ l := by
  rw [Bool.eq_false_iff]
  constructor
  · intro h ha
    exact h (List.elem_iff.mpr ha)
  · intro h hc
    exact h (List.elem_iff.mp hc)

theorem plainKey_parts (k : String) (h : plainKey k = true) :
    '.' ∉ k.data ∧ '[' ∉ k.data ∧ ']' ∉ k.data := by
  simp only [plainKey, Bool.and_eq_true, Bool.not_eq_true', contains_eq_false_iff] at h
  exact ⟨h.1.1, h.1.2, h.2⟩

theorem hasBracketExpr_eq_false (cs : List Char) (h : '[' ∉ cs) :
    hasBracketExpr cs = false := by
  induction cs with
  | nil => rfl
  | cons c rest ih =>
      simp only [List.mem_cons] at h
      push_neg at h
      simp only [hasBracketExpr, if_neg h.1.symm]
      exact ih h.2

theorem isKeyStr_of_plainKey (k : String) (h : plainKey k = true) :
    isKeyStr k = true := by
  obtain ⟨h1, h2, _⟩ := plainKey_parts k h
  simp only [isKeyStr, Bool.or_eq_true, Bool.not_eq_true']
  right
  rw [Bool.or_eq_false_iff]
  constructor
  · rw [contains_eq_false_iff]
    exact h1
  · exact hasBracketExpr_eq_false _ h2

theorem castPath_of_plainKey (k : String) (h : plainKey k = true) :
    castPath k = [k] := by
  simp [castPath, isKeyStr_of_plainKey k h]

theorem takeWhile_all {p : Char → Bool} (l : List Char) (h : ∀ x ∈ l, p x = true) :
    l.takeWhile p = l := by
  induction l with
  | nil => rfl
  | cons c rest ih =>
      simp only [List.takeWhile_cons, h c (by simp)]
      rw [ih fun x hx => h x (List.mem_cons_of_mem _ hx)]
      simp

theorem dropWhile_all {p : Char → Bool} (l : List Char) (h : ∀ x ∈ l, p x = true) :
    l.dropWhile p = [] := by
  induction l with
  | nil => rfl
  | cons c rest ih =>
      simp only [List.dropWhile_cons, h c (by simp)]
      simp only [if_true]
      exact ih fun x hx => h x (List.mem_cons_of_mem _ hx)

theorem expandSegF_nil (f : Nat) : expandSegF f [] = [] := by
  cases f <;> rfl

theorem expandSeg_plain (k : String) (h : plainKey k = true) :
    expandSeg k.data = [k] := by
  obtain ⟨_, h2, h3⟩ := plainKey_parts k h
  rcases hd : k.data with _ | ⟨c, rest⟩
  · have : k = "" := by
      apply String.ext
      simpa using hd
    subst this
    rfl
  · have hnotb : ∀ x ∈ k.data, (decide (x ≠ '[' ∧ x ≠ ']')) = true := by
      intro x hx
      simp only [decide_eq_true_eq]
      exact ⟨fun hc => h2 (hc ▸ hx), fun hc => h3 (hc ▸ hx)⟩
    rw [hd] at hnotb
    have hc1 : ¬c = '[' := by
      have := hnotb c (by simp)
      simp only [decide_eq_true_eq] at this
      exact this.1
    have hc2 : ¬c = ']' := by
      have := hnotb c (by simp)
      simp only [decide_eq_true_eq] at this
      exact this.2
    have hrest : ∀ x ∈ rest, (decide (x ≠ '[' ∧ x ≠ ']')) = true :=
      fun x hx => hnotb x (List.mem_cons_of_mem _ hx)
    simp only [expandSeg, hd, if_neg (by simp : ¬(c :: rest) = [])]
    show expandSegF (c :: rest).length (c :: rest) = [k]
    simp only [List.length_cons, expandSegF, if_neg hc1, if_neg hc2]
    rw [takeWhile_all rest hrest, dropWhile_all rest hrest]
    have hk : (⟨c :: rest⟩ : String) = k := by rw [← hd]
    rw [hk, expandSegF_nil]

theorem splitCharsOn_dotted :
    ∀ (rest : List String) (k0 : String), (∀ k ∈ k0 :: rest, '.' ∉ k.data) →
      splitCharsOn '.' (k0.data ++ rest.flatMap (fun k => '.' :: k.data)) =
        (k0 :: rest).map String.data := by
  intro rest
  induction rest with
  | nil =>
      intro k0 hall
      simp only [List.flatMap_nil, List.append_nil, List.map_cons, List.map_nil]
      exact splitCharsOn_no_sep '.' k0.data (hall k0 (by simp) )
  | cons r rs ih =>
      intro k0 hall
      have hk0 : '.' ∉ k0.data := hall k0 (by simp)
      have hstep :
          k0.data ++ (r :: rs).flatMap (fun k => '.' :: k.data) =
            k0.data ++ '.' :: (r.data ++ rs.flatMap (fun k => '.' :: k.data)) := by
        simp
      rw [hstep, splitCharsOn_append '.' _ _ hk0]
      have := ih r fun k hk => hall k (by
        rcases List.mem_cons.mp hk with h | h
        · simp [h]
        · simp [List.mem_cons_of_mem _ h])
      rw [this]
      simp

theorem plainProp_eq_false_of_dot (s : String) (h : '.' ∈ s.data) :
    plainProp s = false := by
  rw [Bool.eq_false_iff]
  intro hall
  have := List.all_eq_true.mp hall '.' h
  simp [isWordChar] at this

theorem flatMap_expandSeg (l : List String) (h : ∀ k ∈ l, plainKey k = true) :
    (l.map String.data).flatMap expandSeg = l := by
  induction l with
  | nil => rfl
  | cons k rest ih =>
      simp only [List.map_cons, List.flatMap_cons,
        expandSeg_plain k (h k (by simp))]
      rw [ih fun x hx => h x (List.mem_cons_of_mem _ hx)]
      rfl

theorem castPath_dotted (k0 : String) (rest : List String)
    (hall : ∀ k ∈ k0 :: rest, plainKey k = true)
    (hhead : rest ≠ [] → k0 ≠ "") :
    castPath (dottedPath (k0 :: rest)) = k0 :: rest := by
  cases rest with
  | nil => exact castPath_of_plainKey k0 (hall k0 (by simp))
  | cons r rs =>
      have h0 : k0 ≠ "" := hhead (by simp)
      have hdata : (dottedPath (k0 :: r :: rs)).data =
          k0.data ++ (r :: rs).flatMap (fun k => '.' :: k.data) :=
        foldl_joinKey_data (r :: rs) k0 h0
      have hdot : '.' ∈ (dottedPath (k0 :: r :: rs)).data := by
        rw [hdata]; simp
      have hkey : isKeyStr (dottedPath (k0 :: r :: rs)) = false := by
        simp only [isKeyStr, Bool.or_eq_false_iff]
        refine ⟨plainProp_eq_false_of_dot _ hdot, ?_⟩
        simp only [Bool.not_eq_false', Bool.or_eq_true]
        left
        exact List.elem_iff.mpr hdot
      simp only [castPath, hkey, Bool.false_eq_true, if_false, stringToPath]
      rw [hdata, splitCharsOn_dotted (r :: rs) k0 fun k hk => (plainKey_parts k (hall k hk)).1]
      exact flatMap_expandSeg _ hall

theorem segLeaves_cons (k : String) (v : Json) (rest : List (String × Json)) :
    segLeaves ((k, v) :: rest) =
      (match v with
        | .obj gs => (segLeaves gs).map fun pv => (k :: pv.1, pv.2)
        | v' => [([k], v')]) ++ segLeaves rest := by
  rcases v <;> simp [segLeaves]

theorem segLeaves_heads :
    ∀ (fs : List (String × Json)) (pv : List String × Json), pv ∈ segLeaves fs →
      ∃ k ∈ fs.map Prod.fst, ∃ t, pv.1 = k :: t := by
  intro fs
  induction fs with
  | nil => intro pv h; simp [segLeaves] at h
  | cons hd rest ih =>
      obtain ⟨k, v⟩ := hd
      intro pv h
      rw [segLeaves_cons, List.mem_append] at h
      rcases h with h | h
      · rcases hv : v with _ | _ | _ | _ | es | gs <;> rw [hv] at h
        · simp at h; exact ⟨k, by simp, [], by simp [h]⟩
        · simp at h; exact ⟨k, by simp, [], by simp [h]⟩
        · simp at h; exact ⟨k, by simp, [], by simp [h]⟩
        · simp at h; exact ⟨k, by simp, [], by simp [h]⟩
        · simp at h; exact ⟨k, by simp, [], by simp [h]⟩
        · simp only [List.mem_map] at h
          obtain ⟨pv', _, hpv⟩ := h
          exact ⟨k, by simp, pv'.1, by rw [← hpv]⟩
      · obtain ⟨k', hk', t, ht⟩ := ih pv h
        exact ⟨k', by simp [hk'], t, ht⟩

theorem segLeaves_paths_ne_nil (fs : List (String × Json)) (pv : List String × Json)
    (h : pv ∈ segLeaves fs) : pv.1 ≠ [] := by
  obtain ⟨k, _, t, ht⟩ := segLeaves_heads fs pv h
  simp [ht]

theorem segLeaves_top_multi_head (fs : List (String × Json))
    (hg : goodFields true fs = true) :
    ∀ pv ∈ segLeaves fs, 2 ≤ pv.1.length → ¬pv.1.head? = some "" := by
  induction fs with
  | nil => intro pv h; simp [segLeaves] at h
  | cons hd rest ih =>
      obtain ⟨k, v⟩ := hd
      simp only [goodFields, Bool.and_eq_true, Bool.not_eq_true'] at hg
      obtain ⟨⟨⟨⟨⟨⟨hplain, _⟩, hne⟩, _⟩, _⟩, hgv⟩, hgrest⟩ := hg
      intro pv h hlen
      rw [segLeaves_cons, List.mem_append] at h
      rcases h with h | h
      · rcases hv : v with _ | _ | _ | _ | es | gs <;> rw [hv] at h
        · simp at h; rw [h] at hlen; simp at hlen
        · simp at h; rw [h] at hlen; simp at hlen
        · simp at h; rw [h] at hlen; simp at hlen
        · simp at h; rw [h] at hlen; simp at hlen
        · simp at h; rw [h] at hlen; simp at hlen
        · simp only [List.mem_map] at h
          obtain ⟨pv', _, hpv⟩ := h
          rw [← hpv]
          simp only [List.head?_cons, Option.some.injEq]
          intro hcon
          rw [hv] at hne
          simp [hcon, Json.isObjLike] at hne
      · exact ih hgrest pv h hlen

theorem segLeaves_plain : ∀ (top : Bool) (fs : List (String × Json)),
    goodFields top fs = true →
    ∀ pv ∈ segLeaves fs, ∀ kk ∈ pv.1, plainKey kk = true
  | top, [], hg => by intro pv h; simp [segLeaves] at h
  | top, (k, v) :: rest, hg => by
      intro pv h kk hkk
      simp only [goodFields, Bool.and_eq_true, Bool.not_eq_true'] at hg
      obtain ⟨⟨⟨⟨⟨⟨hplain, _⟩, _⟩, _⟩, hkproto⟩, hgv⟩, hgrest⟩ := hg
      rw [segLeaves_cons, List.mem_append] at h
      rcases h with h | h
      · rcases hv : v with _ | _ | _ | _ | es | gs <;> rw [hv] at h
        · simp at h; rw [h] at hkk; simp at hkk; rw [hkk]; exact hplain
        · simp at h; rw [h] at hkk; simp at hkk; rw [hkk]; exact hplain
        · simp at h; rw [h] at hkk; simp at hkk; rw [hkk]; exact hplain
        · simp at h; rw [h] at hkk; simp at hkk; rw [hkk]; exact hplain
        · simp at h; rw [h] at hkk; simp at hkk; rw [hkk]; exact hplain
        · simp only [List.mem_map] at h
          obtain ⟨pv', hpv', hpv⟩ := h
          rw [← hpv] at hkk
          simp only [List.mem_cons] at hkk
          rcases hkk with rfl | hkk
          · exact hplain
          · rw [hv] at hgv
            simp only [goodVal, Bool.and_eq_true] at hgv
            exact segLeaves_plain false gs hgv.2 pv' hpv' kk hkk
      · exact segLeaves_plain top rest hgrest pv h kk hkk
termination_by top fs hg => sizeOf fs
decreasing_by
  all_goals ((try subst hv); simp; (try omega))

theorem segLeaves_nonindex : ∀ (fs : List (String × Json)),
    goodFields false fs = true →
    ∀ pv ∈ segLeaves fs, ∀ kk ∈ pv.1, isIndexStr kk = false
  | [], hg => by intro pv h; simp [segLeaves] at h
  | (k, v) :: rest, hg => by
      intro pv h kk hkk
      simp only [goodFields, Bool.and_eq_true, Bool.not_eq_true'] at hg
      obtain ⟨⟨⟨⟨⟨⟨hplain, hidx⟩, _⟩, _⟩, _⟩, hgv⟩, hgrest⟩ := hg
      simp only [Bool.false_or, Bool.not_eq_true'] at hidx
      rw [segLeaves_cons, List.mem_append] at h
      rcases h with h | h
      · rcases hv : v with _ | _ | _ | _ | es | gs <;> rw [hv] at h
        · simp at h; rw [h] at hkk; simp at hkk; rw [hkk]; exact hidx
        · simp at h; rw [h] at hkk; simp at hkk; rw [hkk]; exact hidx
        · simp at h; rw [h] at hkk; simp at hkk; rw [hkk]; exact hidx
        · simp at h; rw [h] at hkk; simp at hkk; rw [hkk]; exact hidx
        · simp at h; rw [h] at hkk; simp at hkk; rw [hkk]; exact hidx
        · simp only [List.mem_map] at h
          obtain ⟨pv', hpv', hpv⟩ := h
          rw [← hpv] at hkk
          simp only [List.mem_cons] at hkk
          rcases hkk with rfl | hkk
          · exact hidx
          · rw [hv] at hgv
            simp only [goodVal, Bool.and_eq_true] at hgv
            exact segLeaves_nonindex gs hgv.2 pv' hpv' kk hkk
      · exact segLeaves_nonindex rest hgrest pv h kk hkk
termination_by fs hg => sizeOf fs
decreasing_by
  all_goals ((try subst hv); simp; (try omega))

theorem segLeaves_tail_nonindex (fs : List (String × Json))
    (hg : goodFields true fs = true) :
    ∀ pv ∈ segLeaves fs, ∀ kk ∈ pv.1.tail, isIndexStr kk = false := by
  induction fs with
  | nil => intro pv h; simp [segLeaves] at h
  | cons hd rest ih =>
      obtain ⟨k, v⟩ := hd
      simp only [goodFields, Bool.and_eq_true, Bool.not_eq_true'] at hg
      obtain ⟨⟨⟨⟨⟨⟨hplain, _⟩, _⟩, _⟩, hkproto⟩, hgv⟩, hgrest⟩ := hg
      intro pv h kk hkk
      rw [segLeaves_cons, List.mem_append] at h
      rcases h with h | h
      · rcases hv : v with _ | _ | _ | _ | es | gs <;> rw [hv] at h
        · simp at h; rw [h] at hkk; simp at hkk
        · simp at h; rw [h] at hkk; simp at hkk
        · simp at h; rw [h] at hkk; simp at hkk
        · simp at h; rw [h] at hkk; simp at hkk
        · simp at h; rw [h] at hkk; simp at hkk
        · simp only [List.mem_map] at h
          obtain ⟨pv', hpv', hpv⟩ := h
          rw [← hpv] at hkk
          simp only [List.tail_cons] at hkk
          rw [hv] at hgv
          simp only [goodVal, Bool.and_eq_true] at hgv
          exact segLeaves_nonindex gs hgv.2 pv' hpv' kk hkk
      · exact ih hgrest pv h kk hkk

theorem segLeaves_ne_nil : ∀ (top : Bool) (fs : List (String × Json)),
    goodFields top fs = true → fs ≠ [] → segLeaves fs ≠ []
  | top, [], _, hne => absurd rfl hne
  | top, (k, v) :: rest, hg, _ => by
      simp only [goodFields, Bool.and_eq_true, Bool.not_eq_true'] at hg
      obtain ⟨⟨⟨⟨⟨⟨hplain, _⟩, _⟩, _⟩, hkproto⟩, hgv⟩, hgrest⟩ := hg
      rw [segLeaves_cons]
      intro hcon
      rw [List.append_eq_nil] at hcon
      rcases hv : v with _ | _ | _ | _ | es | gs <;> rw [hv] at hcon
      · simp at hcon
      · simp at hcon
      · simp at hcon
      · simp at hcon
      · simp at hcon
      · rw [hv] at hgv
        simp only [goodVal, Bool.and_eq_true, Bool.not_eq_true'] at hgv
        have hgs : gs ≠ [] := by
          intro hcon2
          rw [hcon2] at hgv
          simp at hgv
        have := segLeaves_ne_nil false gs hgv.2 hgs
        simp only [List.map_eq_nil_iff] at hcon
        exact this hcon.1
termination_by top fs hg hne => sizeOf fs
decreasing_by
  all_goals ((try subst hv); simp; (try omega))

theorem segLeaves_nodup : ∀ (top : Bool) (fs : List (String × Json)),
    goodFields top fs = true → ((segLeaves fs).map Prod.fst).Nodup
  | top, [], _ => by simp [segLeaves]
  | top, (k, v) :: rest, hg => by
      simp only [goodFields, Bool.and_eq_true, Bool.not_eq_true'] at hg
      obtain ⟨⟨⟨⟨⟨⟨hplain, _⟩, _⟩, hcont⟩, hkproto⟩, hgv⟩, hgrest⟩ := hg
      have hknot : k ∉ rest.map Prod.fst := by
        rw [contains_eq_false_iff] at hcont
        exact hcont
      rw [segLeaves_cons, List.map_append, List.nodup_append]
      have hdisj : ∀ (p : List String), (∃ t, p = k :: t) →
          p ∉ (segLeaves rest).map Prod.fst := by
        rintro p ⟨t, rfl⟩ hcon
        simp only [List.mem_map] at hcon
        obtain ⟨pv, hpv, hfst⟩ := hcon
        obtain ⟨k', hk', t', ht'⟩ := segLeaves_heads rest pv hpv
        rw [ht'] at hfst
        have : k' = k := by
          have := congrArg List.head? hfst
          simpa using this
        exact hknot (this ▸ hk')
      refine ⟨?_, segLeaves_nodup top rest hgrest, ?_⟩
      · rcases hv : v with _ | _ | _ | _ | es | gs
        · simp
        · simp
        · simp
        · simp
        · simp
        · rw [hv] at hgv
          simp only [goodVal, Bool.and_eq_true] at hgv
          have hnd := segLeaves_nodup false gs hgv.2
          simp only [List.map_map]
          have heq : (Prod.fst ∘ fun pv : List String × Json => (k :: pv.1, pv.2)) =
              (fun p => k :: p) ∘ Prod.fst := by
            funext pv; rfl
          rw [heq, ← List.map_map]
          exact hnd.map fun a b hab => by injection hab
      · intro p hp
        rcases hv : v with _ | _ | _ | _ | es | gs <;> rw [hv] at hp
        · simp at hp; exact hdisj p ⟨[], hp⟩
        · simp at hp; exact hdisj p ⟨[], hp⟩
        · simp at hp; exact hdisj p ⟨[], hp⟩
        · simp at hp; exact hdisj p ⟨[], hp⟩
        · simp at hp; exact hdisj p ⟨[], hp⟩
        · simp only [List.map_map, List.mem_map] at hp
          obtain ⟨pv', _, hpv⟩ := hp
          exact hdisj p ⟨pv'.1, hpv.symm⟩
termination_by top fs hg => sizeOf fs
decreasing_by
  all_goals ((try subst hv); simp; (try omega))

theorem leaves_cons (pre k : String) (v : Json) (rest : List (String × Json)) :
    leaves pre ((k, v) :: rest) =
      (match v with
        | .obj gs => leaves (joinKey pre k) gs
        | v' => [(joinKey pre k, v')]) ++ leaves pre rest := by
  rcases v <;> simp [leaves]

theorem leaves_eq_segLeaves : ∀ (fs : List (String × Json)) (pre : String),
    leaves pre fs = (segLeaves fs).map fun pv => (pv.1.foldl joinKey pre, pv.2)
  | [], pre => by simp [leaves, segLeaves]
  | (k, v) :: rest, pre => by
      rcases hv : v with _ | _ | _ | _ | es | gs
      · simp only [hv, leaves_cons, segLeaves_cons, List.map_append]
        rw [leaves_eq_segLeaves rest pre]; rfl
      · simp only [hv, leaves_cons, segLeaves_cons, List.map_append]
        rw [leaves_eq_segLeaves rest pre]; rfl
      · simp only [hv, leaves_cons, segLeaves_cons, List.map_append]
        rw [leaves_eq_segLeaves rest pre]; rfl
      · simp only [hv, leaves_cons, segLeaves_cons, List.map_append]
        rw [leaves_eq_segLeaves rest pre]; rfl
      · simp only [hv, leaves_cons, segLeaves_cons, List.map_append]
        rw [leaves_eq_segLeaves rest pre]; rfl
      · simp only [hv, leaves_cons, segLeaves_cons, List.map_append]
        rw [leaves_eq_segLeaves rest pre,
          leaves_eq_segLeaves gs (joinKey pre k)]
        simp only [List.map_map]
        rfl
termination_by fs pre => sizeOf fs
decreasing_by
  all_goals ((try subst hv); simp; (try omega))

theorem foldl_joinKey_empty (p : List String) (h : p ≠ []) :
    p.foldl joinKey "" = dottedPath p := by
  cases p with
  | nil => exact absurd rfl h
  | cons k t =>
      show List.foldl joinKey (joinKey "" k) t = dottedPath (k :: t)
      simp [joinKey, dottedPath]

theorem leaves_keys_nodup (fs : List (String × Json))
    (hg : goodFields true fs = true) :
    ((leaves "" fs).map Prod.fst).Nodup := by
  rw [leaves_eq_segLeaves]
  simp only [List.map_map]
  have heq : (Prod.fst ∘ fun pv : List String × Json => (pv.1.foldl joinKey "", pv.2)) =
      (fun p : List String => p.foldl joinKey "") ∘ Prod.fst := by
    funext pv; rfl
  rw [heq, ← List.map_map]
  refine List.Nodup.map_on ?_ (segLeaves_nodup true fs hg)
  intro p1 hp1 p2 hp2 hfold
  obtain ⟨pv1, hpv1, hfst1⟩ := List.mem_map.mp hp1
  obtain ⟨pv2, hpv2, hfst2⟩ := List.mem_map.mp hp2
  have hne1 : p1 ≠ [] := hfst1 ▸ segLeaves_paths_ne_nil fs pv1 hpv1
  have hne2 : p2 ≠ [] := hfst2 ▸ segLeaves_paths_ne_nil fs pv2 hpv2
  obtain ⟨k1, t1, rfl⟩ : ∃ k t, p1 = k :: t := by
    cases p1 with
    | nil => exact absurd rfl hne1
    | cons a b => exact ⟨a, b, rfl⟩
  obtain ⟨k2, t2, rfl⟩ : ∃ k t, p2 = k :: t := by
    cases p2 with
    | nil => exact absurd rfl hne2
    | cons a b => exact ⟨a, b, rfl⟩
  have hc1 : castPath (dottedPath (k1 :: t1)) = k1 :: t1 := by
    refine castPath_dotted k1 t1 ?_ ?_
    · intro kk hkk
      exact segLeaves_plain true fs hg pv1 hpv1 kk (hfst1 ▸ hkk)
    · intro ht1
      have hlen : 2 ≤ (k1 :: t1).length := by
        cases t1 with
        | nil => exact absurd rfl ht1
        | cons _ _ => simp
      have := segLeaves_top_multi_head fs hg pv1 hpv1 (hfst1 ▸ hlen)
      rw [hfst1] at this
      simp only [List.head?_cons] at this
      intro hcon
      exact this (by rw [hcon])
  have hc2 : castPath (dottedPath (k2 :: t2)) = k2 :: t2 := by
    refine castPath_dotted k2 t2 ?_ ?_
    · intro kk hkk
      exact segLeaves_plain true fs hg pv2 hpv2 kk (hfst2 ▸ hkk)
    · intro ht2
      have hlen : 2 ≤ (k2 :: t2).length := by
        cases t2 with
        | nil => exact absurd rfl ht2
        | cons _ _ => simp
      have := segLeaves_top_multi_head fs hg pv2 hpv2 (hfst2 ▸ hlen)
      rw [hfst2] at this
      simp only [List.head?_cons] at this
      intro hcon
      exact this (by rw [hcon])
  rw [foldl_joinKey_empty _ hne1, foldl_joinKey_empty _ hne2] at hfold
  rw [← hc1, ← hc2, hfold]

theorem leaves_cons_scalar (pre k : String) (v : Json) (rest : List (String × Json))
    (h : v.isObjLike = false) :
    leaves pre ((k, v) :: rest) = (joinKey pre k, v) :: leaves pre rest := by
  rcases v <;> simp_all [Json.isObjLike, leaves]

theorem flattenFields_cons_scalar (pre k : String) (v : Json) (acc rest : List (String × Json))
    (h : v.isObjLike = false) :
    flattenFields pre acc ((k, v) :: rest) =
      flattenFields pre (jsAssign acc (joinKey pre k) v) rest := by
  simp only [flattenFields, h, Bool.false_eq_true, if_false]

theorem flattenFields_cons_obj (pre k : String) (gs : List (String × Json))
    (acc rest : List (String × Json)) :
    flattenFields pre acc ((k, .obj gs) :: rest) =
      flattenFields pre (recMerge acc (flattenFields (joinKey pre k) [] gs)) rest := by
  simp only [flattenFields, Json.isObjLike, if_true, flattenJson]

theorem leaves_cons_obj (pre k : String) (gs : List (String × Json))
    (rest : List (String × Json)) :
    leaves pre ((k, .obj gs) :: rest) =
      leaves (joinKey pre k) gs ++ leaves pre rest := by
  simp [leaves]

theorem flattenFields_eq_leaves : ∀ (fs : List (String × Json)) (top : Bool)
    (pre : String) (acc : List (String × Json)),
    goodFields top fs = true →
    ((acc ++ leaves pre fs).map Prod.fst).Nodup →
    flattenFields pre acc fs = acc ++ leaves pre fs
  | [], _, pre, acc, _, _ => by simp [flattenFields, leaves]
  | (k, v) :: rest, top, pre, acc, hg, hnd => by
      simp only [goodFields, Bool.and_eq_true, Bool.not_eq_true'] at hg
      obtain ⟨⟨⟨⟨⟨⟨hplain, _⟩, _⟩, _⟩, hkproto⟩, hgv⟩, hgrest⟩ := hg
      by_cases hobj : v.isObjLike = true
      · rcases hv : v with _ | _ | _ | _ | es | gs <;> subst hv
        · simp [Json.isObjLike] at hobj
        · simp [Json.isObjLike] at hobj
        · simp [Json.isObjLike] at hobj
        · simp [Json.isObjLike] at hobj
        · simp [goodVal] at hgv
        · simp only [goodVal, Bool.and_eq_true] at hgv
          rw [leaves_cons_obj] at hnd ⊢
          rw [flattenFields_cons_obj]
          simp only [List.map_append, List.nodup_append] at hnd
          obtain ⟨hndacc, ⟨hndgs, hndrest, hdisj2⟩, hdisj⟩ := hnd
          have hinner : flattenFields (joinKey pre k) [] gs =
              [] ++ leaves (joinKey pre k) gs :=
            flattenFields_eq_leaves gs false (joinKey pre k) [] hgv.2
              (by simpa using hndgs)
          rw [List.nil_append] at hinner
          rw [hinner]
          have hmerge : recMerge acc (leaves (joinKey pre k) gs) =
              acc ++ leaves (joinKey pre k) gs := by
            refine recMerge_of_disjoint _ _ hndgs ?_
            intro x hx hcon
            exact hdisj hcon (by simp [hx])
          rw [hmerge]
          have houter : flattenFields pre (acc ++ leaves (joinKey pre k) gs) rest =
              (acc ++ leaves (joinKey pre k) gs) ++ leaves pre rest := by
            refine flattenFields_eq_leaves rest top pre _ hgrest ?_
            simp only [List.map_append, List.nodup_append, List.append_assoc]
            refine ⟨hndacc, ⟨hndgs, hndrest, hdisj2⟩, ?_⟩
            intro x hx hcon
            simp only [List.mem_append] at hcon
            rcases hcon with hcon | hcon
            · exact hdisj hx (by simp [hcon])
            · exact hdisj hx (by simp [hcon])
          rw [houter, List.append_assoc]
      · have hobj' : v.isObjLike = false := by simpa using hobj
        rw [leaves_cons_scalar pre k v rest hobj'] at hnd ⊢
        rw [flattenFields_cons_scalar pre k v acc rest hobj']
        simp only [List.map_append, List.map_cons, List.nodup_append,
          List.nodup_cons] at hnd
        obtain ⟨hndacc, ⟨hnk, hndrest⟩, hdisj⟩ := hnd
        have hknotacc : joinKey pre k ∉ acc.map Prod.fst := by
          intro hcon
          exact hdisj hcon (by simp)
        have hkp : k ≠ "__proto__" := by simpa using hkproto
        rw [jsAssign_eq_recSet _ _ _ (joinKey_ne_proto pre k hkp)]
        rw [recSet_of_not_mem acc (joinKey pre k) v hknotacc]
        have hrec : flattenFields pre (acc ++ [(joinKey pre k, v)]) rest =
            (acc ++ [(joinKey pre k, v)]) ++ leaves pre rest := by
          refine flattenFields_eq_leaves rest top pre _ hgrest ?_
          simp only [List.map_append, List.nodup_append, List.map_cons,
            List.map_nil]
          refine ⟨⟨hndacc, by simp, ?_⟩, hndrest, ?_⟩
          · intro x hx hx2
            simp only [List.mem_singleton] at hx2
            exact hdisj hx (by simp [hx2])
          · intro x hx hx2
            simp only [List.mem_append, List.mem_singleton] at hx
            rcases hx with hx | hx
            · exact hdisj hx (by simp [hx2])
            · subst hx
              exact hnk hx2
        rw [hrec]
        simp
termination_by fs top pre acc hg hnd => sizeOf fs
decreasing_by
  all_goals ((try subst hv); simp; (try omega))

theorem recLookup_eq_none {α : Type} (m : List (String × α)) (k : String)
    (h : k ∉ m.map Prod.fst) : recLookup m k = none := by
  rcases hl : recLookup m k with _ | v
  · rfl
  · exact absurd ((recLookup_isSome_iff m k).mp (by simp [hl])) h

theorem setPathFold_append (acc : Json) (a b : List (List String × Json)) :
    setPathFold acc (a ++ b) = setPathFold (setPathFold acc a) b := by
  simp [setPathFold, List.foldl_append]

theorem setPath_obj_is_obj (fsx : List (String × Json)) (path : List String) (v : Json) :
    ∃ fsy, setPath (.obj fsx) path v = .obj fsy := by
  cases path with
  | nil => exact ⟨fsx, rfl⟩
  | cons k rest =>
      cases rest with
      | nil => exact ⟨jsAssign fsx k v, rfl⟩
      | cons k2 r2 => exact ⟨jsAssign fsx k _, rfl⟩

theorem setPathFold_prefixed :
    ∀ (entries : List (List String × Json)) (accFs cFs : List (String × Json))
      (k : String),
      recLookup accFs k = some (.obj cFs) →
      (∀ pv ∈ entries, (pv : List String × Json).1 ≠ []) →
      setPathFold (.obj accFs) (entries.map fun pv => (k :: pv.1, pv.2)) =
        .obj (recSet accFs k (setPathFold (.obj cFs) entries))
  | [], accFs, cFs, k, hlook, _ => by
      simp [setPathFold, recSet_lookup_self accFs k _ hlook]
  | (p, val) :: entries', accFs, cFs, k, hlook, hne => by
      obtain ⟨p0, prest, rfl⟩ : ∃ a b, p = a :: b := by
        rcases p with _ | ⟨a, b⟩
        · exact absurd rfl (hne (⟨[], val⟩ : List String × Json) (by simp))
        · exact ⟨a, b, rfl⟩
      obtain ⟨cFs2, hC⟩ := setPath_obj_is_obj cFs (p0 :: prest) val
      have step : setPath (.obj accFs) (k :: p0 :: prest) val =
          .obj (recSet accFs k (.obj cFs2)) := by
        rw [← hC]
        show Json.obj
            (jsAssign accFs k
              (setPath
                (match getProp (.obj accFs) k with
                  | some c => if c.isObjLike then c
                      else (if isIndexStr p0 then .arr [] else .obj [])
                  | none => if isIndexStr p0 then .arr [] else .obj [])
                (p0 :: prest) val)) = _
        rw [jsAssign_eq_recSet_of_lookup accFs k _ _ hlook]
        rw [show getProp (.obj accFs) k = some (.obj cFs) from hlook]
        rfl
      have hmapcons :
          ((⟨p0 :: prest, val⟩ :: entries' :
              List (List String × Json)).map fun pv => (k :: pv.1, pv.2)) =
            (k :: p0 :: prest, val) :: entries'.map fun pv => (k :: pv.1, pv.2) := by
        simp
      rw [hmapcons]
      have hfold1 : setPathFold (.obj accFs)
          ((k :: p0 :: prest, val) :: entries'.map fun pv => (k :: pv.1, pv.2)) =
          setPathFold (setPath (.obj accFs) (k :: p0 :: prest) val)
            (entries'.map fun pv => (k :: pv.1, pv.2)) := by
        simp [setPathFold]
      rw [hfold1, step]
      rw [setPathFold_prefixed entries' (recSet accFs k (.obj cFs2)) cFs2 k
        (recLookup_recSet_self accFs k _)
        (fun pv hpv => hne pv (List.mem_cons_of_mem _ hpv))]
      rw [recSet_recSet]
      have hinner : setPathFold (.obj cFs) ((p0 :: prest, val) :: entries') =
          setPathFold (.obj cFs2) entries' := by
        simp [setPathFold, hC]
      rw [hinner]

theorem segLeaves_cons_scalar (k : String) (v : Json) (rest : List (String × Json))
    (h : v.isObjLike = false) :
    segLeaves ((k, v) :: rest) = ([k], v) :: segLeaves rest := by
  rcases v with _ | _ | _ | _ | es | gs
  · simp [segLeaves]
  · simp [segLeaves]
  · simp [segLeaves]
  · simp [segLeaves]
  · exact absurd h (by simp [Json.isObjLike])
  · exact absurd h (by simp [Json.isObjLike])

theorem segLeaves_cons_obj (k : String) (gs rest : List (String × Json)) :
    segLeaves ((k, .obj gs) :: rest) =
      ((segLeaves gs).map fun pv => (k :: pv.1, pv.2)) ++ segLeaves rest := by
  simp [segLeaves]

theorem setPathFold_segLeaves : ∀ (fs : List (String × Json)) (top : Bool)
    (accFs : List (String × Json)),
    goodFields top fs = true →
    (∀ kk ∈ fs.map Prod.fst, kk ∉ accFs.map Prod.fst) →
    setPathFold (.obj accFs) (segLeaves fs) = .obj (accFs ++ fs)
  | [], _, accFs, _, _ => by simp [setPathFold, segLeaves]
  | (k, v) :: rest, top, accFs, hg, hdisj => by
      simp only [goodFields, Bool.and_eq_true, Bool.not_eq_true'] at hg
      obtain ⟨⟨⟨⟨⟨⟨hplain, _⟩, _⟩, hcont⟩, hkproto⟩, hgv⟩, hgrest⟩ := hg
      have hkp : k ≠ "__proto__" := by simpa using hkproto
      have hknot : k ∉ accFs.map Prod.fst := hdisj k (by simp)
      have hkrest : k ∉ rest.map Prod.fst := by
        rw [contains_eq_false_iff] at hcont
        exact hcont
      have hdisj' : ∀ kk ∈ rest.map Prod.fst,
          kk ∉ (accFs ++ [(k, v)]).map Prod.fst ∧ True := by
        intro kk hkk
        refine ⟨?_, trivial⟩
        simp only [List.map_append, List.mem_append, List.map_cons, List.map_nil,
          List.mem_singleton]
        push_neg
        refine ⟨hdisj kk (by simp [hkk]), ?_⟩
        intro hcon
        exact hkrest (hcon ▸ hkk)
      by_cases hobj : v.isObjLike = true
      · rcases hv : v with _ | _ | _ | _ | es | gs <;> subst hv
        · simp [Json.isObjLike] at hobj
        · simp [Json.isObjLike] at hobj
        · simp [Json.isObjLike] at hobj
        · simp [Json.isObjLike] at hobj
        · simp [goodVal] at hgv
        · -- the object case
          rw [segLeaves_cons_obj, setPathFold_append]
          simp only [goodVal, Bool.and_eq_true, Bool.not_eq_true'] at hgv
          have hgs : gs ≠ [] := by
            intro hcon
            rw [hcon] at hgv
            simp at hgv
          rcases hsl : segLeaves gs with _ | ⟨⟨p0, v0⟩, erest⟩
          · exact absurd hsl (segLeaves_ne_nil false gs hgv.2 hgs)
          · have hmem0 : (⟨p0, v0⟩ : List String × Json) ∈ segLeaves gs := by
              rw [hsl]; simp
            obtain ⟨q0, qrest, rfl⟩ : ∃ a b, p0 = a :: b := by
              have := segLeaves_paths_ne_nil gs _ hmem0
              rcases p0 with _ | ⟨a, b⟩
              · exact absurd rfl this
              · exact ⟨a, b, rfl⟩
            have hq0 : isIndexStr q0 = false :=
              segLeaves_nonindex gs hgv.2 _ hmem0 q0 (by simp)
            obtain ⟨c1fs, hC1⟩ := setPath_obj_is_obj [] (q0 :: qrest) v0
            have step1 : setPath (.obj accFs) (k :: q0 :: qrest) v0 =
                .obj (accFs ++ [(k, setPath (.obj []) (q0 :: qrest) v0)]) := by
              show Json.obj
                  (jsAssign accFs k
                    (setPath
                      (match getProp (.obj accFs) k with
                        | some c => if c.isObjLike then c
                            else (if isIndexStr q0 then .arr [] else .obj [])
                        | none => if isIndexStr q0 then .arr [] else .obj [])
                      (q0 :: qrest) v0)) = _
              rw [jsAssign_eq_recSet _ _ _ hkp]
              rw [show getProp (.obj accFs) k = none from recLookup_eq_none accFs k hknot]
              rw [recSet_of_not_mem accFs k _ hknot]
              simp [hq0]
            have hfold : setPathFold (.obj accFs)
                (((⟨q0 :: qrest, v0⟩ : List String × Json) :: erest).map
                  fun pv => (k :: pv.1, pv.2)) =
                .obj (accFs ++ [(k, setPathFold (.obj c1fs) erest)]) := by
              have hmc : (((⟨q0 :: qrest, v0⟩ : List String × Json) :: erest).map
                  fun pv => (k :: pv.1, pv.2)) =
                  (k :: q0 :: qrest, v0) :: erest.map fun pv => (k :: pv.1, pv.2) := by
                simp
              rw [hmc]
              have : setPathFold (.obj accFs)
                  ((k :: q0 :: qrest, v0) :: erest.map fun pv => (k :: pv.1, pv.2)) =
                  setPathFold (setPath (.obj accFs) (k :: q0 :: qrest) v0)
                    (erest.map fun pv => (k :: pv.1, pv.2)) := by
                simp [setPathFold]
              rw [this, step1, hC1]
              rw [setPathFold_prefixed erest (accFs ++ [(k, .obj c1fs)]) c1fs k
                (recLookup_append_right accFs k _ hknot)
                (fun pv hpv => segLeaves_paths_ne_nil gs pv
                  (by rw [hsl]; exact List.mem_cons_of_mem _ hpv))]
              rw [recSet_append_last accFs k _ _ hknot]
            rw [hfold]
            have hinner : setPathFold (.obj c1fs) erest = .obj gs := by
              have hall : setPathFold (.obj []) (segLeaves gs) = .obj ([] ++ gs) :=
                setPathFold_segLeaves gs false [] hgv.2 (by simp)
              rw [hsl] at hall
              have : setPathFold (.obj []) ((⟨q0 :: qrest, v0⟩ :
                  List String × Json) :: erest) =
                  setPathFold (setPath (.obj []) (q0 :: qrest) v0) erest := by
                simp [setPathFold]
              rw [this, hC1] at hall
              simpa using hall
            rw [hinner]
            have hrest : setPathFold (.obj (accFs ++ [(k, .obj gs)])) (segLeaves rest) =
                .obj ((accFs ++ [(k, .obj gs)]) ++ rest) :=
              setPathFold_segLeaves rest top (accFs ++ [(k, .obj gs)]) hgrest
                (fun kk hkk => (hdisj' kk hkk).1)
            rw [hrest]
            simp
      · have hobj' : v.isObjLike = false := by simpa using hobj
        rw [segLeaves_cons_scalar k v rest hobj']
        have hstep : setPathFold (.obj accFs) (([k], v) :: segLeaves rest) =
            setPathFold (.obj (accFs ++ [(k, v)])) (segLeaves rest) := by
          show setPathFold (Json.obj (jsAssign accFs k v)) (segLeaves rest) = _
          rw [jsAssign_eq_recSet _ _ _ hkp]
          rw [recSet_of_not_mem accFs k v hknot]
        rw [hstep]
        have hrest : setPathFold (.obj (accFs ++ [(k, v)])) (segLeaves rest) =
            .obj ((accFs ++ [(k, v)]) ++ rest) :=
          setPathFold_segLeaves rest top (accFs ++ [(k, v)]) hgrest
            (fun kk hkk => (hdisj' kk hkk).1)
        rw [hrest]
        simp
termination_by fs top accFs hg hdisj => sizeOf fs
decreasing_by
  all_goals ((try subst hv); simp; (try omega))

theorem flattenObject_eq_leaves (fs : List (String × Json))
    (hg : goodFields true fs = true) :
    flattenObject (.obj fs) = leaves "" fs := by
  show flattenFields "" [] fs = leaves "" fs
  have h := flattenFields_eq_leaves fs true "" [] hg
    (by simpa using leaves_keys_nodup fs hg)
  simpa using h

theorem unflatten_leaves_eq_setPathFold (fs : List (String × Json))
    (hg : goodFields true fs = true) :
    unflattenObject (leaves "" fs) = setPathFold (.obj []) (segLeaves fs) := by
  rw [leaves_eq_segLeaves]
  show ((segLeaves fs).map fun pv => (pv.1.foldl joinKey "", pv.2)).foldl
      (fun acc kv => lodashSet acc kv.1 kv.2) (.obj []) = _
  rw [List.foldl_map]
  simp only [setPathFold]
  refine List.foldl_ext _ _ _ ?_
  intro acc pv hpv
  obtain ⟨k0, t0, hsplit⟩ : ∃ k t, pv.1 = k :: t := by
    have := segLeaves_paths_ne_nil fs pv hpv
    rcases hp : pv.1 with _ | ⟨a, b⟩
    · exact absurd hp this
    · exact ⟨a, b, rfl⟩
  show lodashSet acc (pv.1.foldl joinKey "") pv.2 = setPath acc pv.1 pv.2
  rw [lodashSet, foldl_joinKey_empty pv.1 (by simp [hsplit])]
  have hcast : castPath (dottedPath pv.1) = pv.1 := by
    rw [hsplit]
    refine castPath_dotted k0 t0 ?_ ?_
    · intro kk hkk
      exact segLeaves_plain true fs hg pv hpv kk (by rw [hsplit]; exact hkk)
    · intro ht0 hcon
      have hlen : 2 ≤ pv.1.length := by
        rw [hsplit]
        cases t0 with
        | nil => exact absurd rfl ht0
        | cons _ _ => simp
      have := segLeaves_top_multi_head fs hg pv hpv hlen
      rw [hsplit] at this
      simp only [List.head?_cons] at this
      exact this (by rw [hcon])
  rw [hcast]

/-- C2 counterexample: the round trip unflattenObject (flattenObject doc)
fails on documents that are free of arrays and dot-containing keys.  An
empty-object subtree is dropped; a nested integer-like key makes lodash set
build an array; a key with a bracket expression is split as a lodash path;
a key containing ']' has that character swallowed by lodash path parsing;
an empty top-level key with an object value is collapsed by the falsy-prefix
test of flattenObject; a top-level "__proto__" key is lost to the
Object.prototype setter when flattening assigns it, and a nested one is lost
the same way when the unflattening assignment reaches it.  Each failure
forces one restriction of the amended round-trip domain. -/
theorem flatten_unflatten_roundtrip_cex :
    (unflattenObject (flattenObject (.obj [("a", .obj [])])) = .obj [] ∧
      Json.obj [] ≠ .obj [("a", .obj [])]) ∧
    (unflattenObject (flattenObject (.obj [("a", .obj [("0", .str "x")])])) =
        .obj [("a", .arr [.str "x"])] ∧
      Json.obj [("a", .arr [.str "x"])] ≠ .obj [("a", .obj [("0", .str "x")])]) ∧
    (unflattenObject (flattenObject (.obj [("a[0]", .str "x")])) =
        .obj [("a", .arr [.str "x"])] ∧
      Json.obj [("a", .arr [.str "x"])] ≠ .obj [("a[0]", .str "x")]) ∧
    (unflattenObject (flattenObject (.obj [("a]", .obj [("b", .num 1)])])) =
        .obj [("a", .obj [("b", .num 1)])] ∧
      Json.obj [("a", .obj [("b", .num 1)])] ≠ .obj [("a]", .obj [("b", .num 1)])]) ∧
    (unflattenObject (flattenObject (.obj [("", .obj [("a", .bool true)])])) =
        .obj [("a", .bool true)] ∧
      Json.obj [("a", .bool true)] ≠ .obj [("", .obj [("a", .bool true)])]) ∧
    (unflattenObject (flattenObject (.obj [("__proto__", .str "x")])) = .obj [] ∧
      Json.obj [] ≠ .obj [("__proto__", .str "x")]) ∧
    (unflattenObject (flattenObject (.obj [("a", .obj [("__proto__", .str "x")])])) =
        .obj [("a", .obj [])] ∧
      Json.obj [("a", .obj [])] ≠ .obj [("a", .obj [("__proto__", .str "x")])]) := by
  decide

/-- C2 amended: for every JSON document without array values, whose keys are
free of '.', '[' and ']', never "__proto__", unique among their siblings,
not integer-like below the top level, and not the empty key at the top level
with an object value, and whose object subtrees are nonempty, the round trip
unflattenObject (flattenObject doc) reproduces the document exactly. -/
theorem flatten_unflatten_roundtrip (fs : List (String × Json))
    (hg : goodFields true fs = true) :
    unflattenObject (flattenObject (.obj fs)) = .obj fs := by
  rw [flattenObject_eq_leaves fs hg, unflatten_leaves_eq_setPathFold fs hg,
    setPathFold_segLeaves fs true [] hg (by simp)]
  simp

/-- C2 amended witness: the round trip at a concrete nested document. -/
theorem flatten_unflatten_roundtrip_witness :
    goodFields true [("a", Json.obj [("b", .str "x"), ("c", .num 3)]),
        ("d", .str "y")] = true ∧
      unflattenObject (flattenObject (.obj [("a", .obj [("b", .str "x"),
        ("c", .num 3)]), ("d", .str "y")])) =
        .obj [("a", .obj [("b", .str "x"), ("c", .num 3)]), ("d", .str "y")] :=
  ⟨by decide,
    flatten_unflatten_roundtrip
      [("a", .obj [("b", .str "x"), ("c", .num 3)]), ("d", .str "y")] (by decide)⟩
